import Mathlib

/-!
# decorate

A shallow embedding of `cmd/tools/decorate.go`, the generator that emits, for a base type and a
list of optional capabilities, a dispatch function with one branch per presence pattern, one
anonymous composite struct per combination and one forwarding adapter per capability.

Go strings are modelled as byte sequences, the `types` map as an association list with unique
keys that is visited in ascending key order (as `text/template` does for `range`), and the
template as a function from the template data to the emitted text.  Run-time panics and
`os.Exit` are modelled as failures of an `Except` value.
-/

namespace Decorate

/-! ## Strings -/

/-- A Go string is an immutable sequence of bytes; each element is a byte value below 256. -/
abbrev GoString := List Nat

/-- UTF-8 encoding of one code point. -/
def utf8EncodeChar (c : Nat) : List Nat :=
  if c < 0x80 then [c]
  else if c < 0x800 then [0xC0 + c / 0x40, 0x80 + c % 0x40]
  else if c < 0x10000 then [0xE0 + c / 0x1000, 0x80 + (c / 0x40) % 0x40, 0x80 + c % 0x40]
  else [0xF0 + c / 0x40000, 0x80 + (c / 0x1000) % 0x40, 0x80 + (c / 0x40) % 0x40, 0x80 + c % 0x40]

/-- The bytes of a string literal of the Go source (Go source text is UTF-8). -/
def str (s : String) : GoString :=
  (s.toList.map (fun c => utf8EncodeChar c.toNat)).flatten

/-- Go's `<` on strings: bytewise lexicographic order. -/
def strLess : GoString → GoString → Bool
  | [], [] => false
  | [], _ :: _ => true
  | _ :: _, [] => false
  | a :: as, b :: bs => decide (a < b) || (decide (a = b) && strLess as bs)

/-- Go's `<=` on strings. -/
def strLE (a b : GoString) : Bool := !(strLess b a)

/-- Splits `s` around the first occurrence of the byte `sep` (the single-byte case of
`strings.Index` followed by the two slices `s[:m]` and `s[m+1:]`). -/
def cut (sep : Nat) : GoString → Option (GoString × GoString)
  | [] => none
  | c :: cs =>
    if c = sep then some ([], cs)
    else match cut sep cs with
      | none => none
      | some (a, b) => some (c :: a, b)

/-- The function `strings.SplitN(s, sep, n)` for a one-byte separator and `n ≥ 0`: at most `n`
substrings, the last one being the unsplit remainder. -/
def SplitN (s : GoString) (sep : Nat) : Nat → List GoString
  | 0 => []
  | 1 => [s]
  | n + 2 =>
    match cut sep s with
    | none => [s]
    | some (a, b) => a :: SplitN b sep (n + 1)

/-- The function `strings.ToLower` applied to a string of exactly one byte `c`, which is the only
way `generate` calls it (`strings.ToLower(parts[1][:1])`): an ASCII capital is lower-cased, any
other ASCII byte is kept, and a byte `≥ 0x80` alone is invalid UTF-8 and is replaced by the
encoding of U+FFFD. -/
def ToLower (c : Nat) : GoString :=
  if c < 0x80 then
    if 65 ≤ c ∧ c ≤ 90 then [c + 32] else [c]
  else [0xEF, 0xBF, 0xBD]

/-! ## Failures -/

/-- How a run stops early. -/
inductive Failure
  /-- a run-time panic (index or slice bound out of range); the process dies with status 2 -/
  | panic
  /-- the call `os.Exit(code)` -/
  | exit (code : Nat)
  deriving DecidableEq, Repr

/-- Exit status of the process for a failure. -/
def Failure.status : Failure → Nat
  | .panic => 2
  | .exit code => code

/-- Indexing `xs[i]`, which panics when `i` is out of range. -/
def index {α : Type} (xs : List α) (i : Nat) : Except Failure α :=
  match xs[i]? with
  | some x => .ok x
  | none => .error .panic

/-! ## Data model -/

/-- One `-type` record: `dynamicType{typ, function, signature}`. -/
structure dynamicType where
  typ : GoString
  function : GoString
  signature : GoString
  deriving DecidableEq, Repr

/-- The template record of one capability (`typeStruct`); `Typ` is the Go field `Type`. -/
structure typeStruct where
  Typ : GoString
  ShortType : GoString
  Signature : GoString
  Function : GoString
  VarName : GoString
  deriving DecidableEq, Repr

/-- The zero value of `typeStruct`, which a Go map returns for an absent key. -/
def typeStruct.zero : typeStruct := ⟨[], [], [], [], []⟩

/-- A Go `map[string]typeStruct`: an association list in which every key occurs once. -/
abbrev TypesMap := List (GoString × typeStruct)

/-- The assignment `m[k] = v`. -/
def mapSet : TypesMap → GoString → typeStruct → TypesMap
  | [], k, v => [(k, v)]
  | (k', v') :: rest, k, v =>
    if k' = k then (k, v) :: rest else (k', v') :: mapSet rest k v

/-- The lookup `m[k]`, the zero value when `k` is absent. -/
def mapGet : TypesMap → GoString → typeStruct
  | [], _ => typeStruct.zero
  | (k', v') :: rest, k => if k' = k then v' else mapGet rest k

/-- The keys of a map. -/
def keys (m : TypesMap) : List GoString := m.map Prod.fst

/-- The entries of a map in the order in which a template `range` visits them: ascending keys. -/
def sortedEntries (m : TypesMap) : TypesMap :=
  List.insertionSort (fun a b => strLE a.1 b.1 = true) m

/-! ## The combinations library -/

/-- Modelled from the spec: `combinations.All` of the imported package
`github.com/mxschmitt/golang-combinations`, whose code is not part of the sources.  The inner
loop of the enumerator: the members of `set` whose position is a set bit of `subsetBits`, in input
order. -/
def subsetOfBits {α : Type} (set : List α) (subsetBits : Nat) : List α :=
  (List.range set.length).filterMap
    (fun object => if (subsetBits >>> object) &&& 1 = 1 then set[object]? else none)

/-- Modelled from the spec: `combinations.All` of the imported package
`github.com/mxschmitt/golang-combinations`, whose code is not part of the sources.  It returns
all non-empty subsets of `set`, each in input order: one subset for every bit pattern
`subsetBits = 1, …, 2^n - 1`, in ascending order of the pattern (computed over unbounded
integers). -/
def All {α : Type} (set : List α) : List (List α) :=
  (List.range' 1 ((1 <<< set.length) - 1)).map (subsetOfBits set)

/-! ## generate: building the template data -/

/-- The anonymous struct `vars` handed to the template. -/
structure Vars where
  API : GoString
  Package : GoString
  Function : GoString
  BaseType : GoString
  ShortBase : GoString
  Types : TypesMap
  Combinations : List (List GoString)
  deriving DecidableEq, Repr

/-- The slice expression `s[:1]`, which panics on the empty string; the result is the first
byte. -/
def firstByte : GoString → Except Failure Nat
  | [] => .error .panic
  | c :: _ => .ok c

/-- The record stored under `dt.typ` by one iteration of the first loop of `generate`. -/
def mkTypeStruct (dt : dynamicType) : Except Failure typeStruct :=
  match index (SplitN dt.typ 46 2) 1 with
  | .error e => .error e
  | .ok short =>
    match firstByte short with
    | .error e => .error e
    | .ok c =>
      .ok { Typ := dt.typ
            ShortType := short
            VarName := ToLower c ++ short.drop 1
            Signature := dt.signature
            Function := dt.function }

/-- The first loop of `generate`: fills the map `types` and the slice `combos`. -/
def typesLoop : List dynamicType → TypesMap → List GoString →
    Except Failure (TypesMap × List GoString)
  | [], types, combos => .ok (types, combos)
  | dt :: rest, types, combos =>
    match mkTypeStruct dt with
    | .error e => .error e
    | .ok ts => typesLoop rest (mapSet types dt.typ ts) (combos ++ [dt.typ])

/-- The template data built by `generate` before the template runs. -/
def buildVars (packageName functionName baseType : GoString) (dynamicTypes : List dynamicType) :
    Except Failure Vars :=
  match typesLoop dynamicTypes [] [] with
  | .error e => .error e
  | .ok (types, combos) =>
    match index (SplitN baseType 46 2) 1 with
    | .error e => .error e
    | .ok shortBase =>
      .ok { API := str "github.com/andig/evcc/api"
            Package := packageName
            Function := functionName
            BaseType := baseType
            ShortBase := shortBase
            Types := types
            Combinations := All combos }

/-! ## The template functions -/

/-- Template function `contains`: whether the slice `combo` holds the string `typ`. -/
def contains : List GoString → GoString → Bool
  | [], _ => false
  | v :: rest, typ => if v = typ then true else contains rest typ

/-- Template function `ordered`: the records of the capabilities in input order. -/
def ordered (types : TypesMap) (dynamicTypes : List dynamicType) : List typeStruct :=
  dynamicTypes.map (fun k => mapGet types k.typ)

/-- Template builtin `slice s i` on a string: `s[i:]`, an execution error when `i > len(s)`. -/
def slice (s : GoString) (i : Nat) : Option GoString :=
  if i ≤ s.length then some (s.drop i) else none

/-! ## What the template emits

The emitted Go text is described by a small syntax tree together with the function that prints
it; `generate` is the composition of the two. -/

/-- One operand of a guard: `<VarName> != nil` when `present`, `<VarName> == nil` otherwise. -/
structure Conjunct where
  VarName : GoString
  present : Bool
  deriving DecidableEq, Repr

/-- One initialiser of the composite literal:
`<Field>: &<Impl>{ <Key>: <Value>, },`. -/
structure FieldInit where
  Field : GoString
  Impl : GoString
  Key : GoString
  Value : GoString
  deriving DecidableEq, Repr

/-- The value `&struct{ <Base>; <Embedded>... }{ <ShortBase>: base, <Inits>... }`. -/
structure Composite where
  Base : GoString
  Embedded : List GoString
  ShortBase : GoString
  Inits : List FieldInit
  deriving DecidableEq, Repr

/-- The statement of a `case`: `return base` or `return &struct{...}{...}`. -/
inductive Body
  | returnBase
  | returnComposite (c : Composite)
  deriving DecidableEq, Repr

/-- One `case <guard>: <body>` of the switch; the guard is the `&&` of its conjuncts. -/
structure Branch where
  guard : List Conjunct
  body : Body
  deriving DecidableEq, Repr

/-- The argument of the template `case`, assembled by `dict`. -/
structure CaseData where
  BaseType : GoString
  Prefix : GoString
  ShortBase : GoString
  Types : TypesMap
  Combo : List GoString

/-- A value of type `interface{}` handed to a template function: a string, the `types` map, a
slice of strings, or nil. -/
inductive Value
  | string (s : GoString)
  | types (m : TypesMap)
  | strings (c : List GoString)
  | nil
  deriving DecidableEq, Repr

/-- The type assertion `v.(string)`. -/
def Value.asString : Value → Option GoString
  | .string s => some s
  | _ => none

/-- A Go `map[string]interface{}`: an association list in which every key occurs once. -/
abbrev Dict := List (GoString × Value)

/-- The assignment `dict[k] = v`. -/
def dictSet : Dict → GoString → Value → Dict
  | [], k, v => [(k, v)]
  | (k', v') :: rest, k, v =>
    if k' = k then (k, v) :: rest else (k', v') :: dictSet rest k v

/-- The lookup `v, ok := dict[k]`. -/
def dictGet : Dict → GoString → Option Value
  | [], _ => none
  | (k', v') :: rest, k => if k' = k then some v' else dictGet rest k

/-- How the template function `dict` fails: its two errors, and the panic of `values[i+1]` on a
key without value (which the length check rules out). -/
inductive DictError
  | invalidCall
  | keysMustBeStrings
  | panic
  deriving DecidableEq, Repr

/-- The loop of `dict`, two arguments per round: the key is asserted to be a string, then bound
to the argument after it. -/
def dictLoop : List Value → Dict → Except DictError Dict
  | [], dict => .ok dict
  | [k], _ =>
    match k.asString with
    | none => .error .keysMustBeStrings
    | some _ => .error .panic
  | k :: v :: rest, dict =>
    match k.asString with
    | none => .error .keysMustBeStrings
    | some key => dictLoop rest (dictSet dict key v)

/-- Template function `dict`: an odd number of arguments is an invalid call; otherwise the
arguments are taken as key, value, key, value, ... -/
def dict (values : List Value) : Except DictError Dict :=
  if values.length % 2 ≠ 0 then .error .invalidCall else dictLoop values []

/-- The arguments of the call of `dict` in the template:
`dict "BaseType" $basetype "Prefix" $prefix "ShortBase" $shortbase "Types" $types "Combo" $combo`. -/
def caseArgs (d : CaseData) : List Value :=
  [.string (str "BaseType"), .string d.BaseType, .string (str "Prefix"), .string d.Prefix,
   .string (str "ShortBase"), .string d.ShortBase, .string (str "Types"), .types d.Types,
   .string (str "Combo"), .strings d.Combo]

/-- The guard of template `case`: one conjunct per entry of `.Types`, in key order. -/
def caseGuard (d : CaseData) : List Conjunct :=
  (sortedEntries d.Types).map (fun e => { VarName := e.2.VarName, present := contains d.Combo e.1 })

/-- The composite literal of template `case`. -/
def caseComposite (d : CaseData) : Composite :=
  { Base := d.BaseType
    Embedded := (sortedEntries d.Types).filterMap
      (fun e => if contains d.Combo e.1 then some e.1 else none)
    ShortBase := d.ShortBase
    Inits := (sortedEntries d.Types).filterMap
      (fun e => if contains d.Combo e.1 then
        some { Field := e.2.ShortType
               Impl := d.Prefix ++ e.2.ShortType ++ str "Impl"
               Key := e.2.VarName
               Value := e.2.VarName }
        else none) }

/-- The template `case`. -/
def caseBranch (d : CaseData) : Branch :=
  { guard := caseGuard d, body := .returnComposite (caseComposite d) }

/-- The first `case` of the switch: every variable `== nil`, body `return base`. -/
def zeroBranch (types : TypesMap) : Branch :=
  { guard := (sortedEntries types).map (fun e => { VarName := e.2.VarName, present := false })
    body := .returnBase }

/-- The forwarding type emitted for one entry of `.Types`:
`type <Name> struct { <Field> <FieldType> }` and
`func (impl *<Name>) <Method><MethodSig> { return impl.<Callee>() }`. -/
structure Adapter where
  Name : GoString
  Field : GoString
  FieldType : GoString
  Method : GoString
  MethodSig : GoString
  Callee : GoString
  deriving DecidableEq, Repr

/-- The body of `range .Types` at the end of the template; fails when `slice` does. -/
def adapterOf (pre : GoString) (t : typeStruct) : Option Adapter :=
  match slice t.Signature 4 with
  | none => none
  | some sig =>
    some { Name := pre ++ t.ShortType ++ str "Impl"
           Field := t.VarName
           FieldType := t.Signature
           Method := t.Function
           MethodSig := sig
           Callee := t.VarName }

/-- The adapters in the order of `range .Types`; execution stops at the first error. -/
def adaptersOf (pre : GoString) : List typeStruct → Option (List Adapter)
  | [] => some []
  | t :: ts =>
    match adapterOf pre t with
    | none => none
    | some a =>
      match adaptersOf pre ts with
      | none => none
      | some as => some (a :: as)

/-- The emitted file. -/
structure File where
  Package : GoString
  API : GoString
  Function : GoString
  BaseType : GoString
  Params : List (GoString × GoString)
  Branches : List Branch
  Adapters : List Adapter
  deriving DecidableEq, Repr

/-- Execution of the template on `vars`; `dynamicTypes` is captured by `ordered`. -/
def execute (vars : Vars) (dynamicTypes : List dynamicType) : Option File :=
  match adaptersOf vars.Function ((sortedEntries vars.Types).map (fun e => e.2)) with
  | none => none
  | some adapters =>
    some { Package := vars.Package
           API := vars.API
           Function := vars.Function
           BaseType := vars.BaseType
           Params := (ordered vars.Types dynamicTypes).map (fun t => (t.VarName, t.Signature))
           Branches := zeroBranch vars.Types ::
             vars.Combinations.map (fun combo =>
               caseBranch { BaseType := vars.BaseType
                            Prefix := vars.Function
                            ShortBase := vars.ShortBase
                            Types := vars.Types
                            Combo := combo })
           Adapters := adapters }

/-! ## Printing -/

/-- The text ` <VarName> != nil` or ` <VarName> == nil`. -/
def Conjunct.render (c : Conjunct) : GoString :=
  str " " ++ c.VarName ++ str " " ++ (if c.present then str "!=" else str "==") ++ str " nil"

/-- The guard loop: `$idx` is 0 before the first conjunct and 1 afterwards, and every conjunct
but the first is preceded by ` &&`. -/
def renderGuard : List Conjunct → Nat → GoString
  | [], _ => []
  | c :: cs, idx =>
    (if idx > 0 then str " &&" else []) ++ c.render ++ renderGuard cs (if idx > 0 then idx else 1)

/-- One initialiser of the composite literal. -/
def FieldInit.render (f : FieldInit) : GoString :=
  str "\n\t\t\t" ++ f.Field ++ str ": &" ++ f.Impl ++ str "\x7b\n\t\t\t\t" ++ f.Key ++ str ": " ++
    f.Value ++ str ",\n\t\t\t\x7d,"

/-- The text after the guard of template `case`. -/
def Composite.render (c : Composite) : GoString :=
  str ":\n\t\treturn &struct\x7b\n\t\t\t" ++ c.Base ++
    (c.Embedded.map (fun typ => str "\n\t\t\t" ++ typ)).flatten ++
    str "\n\t\t\x7d\x7b\n\t\t\t" ++ c.ShortBase ++ str ": base," ++
    (c.Inits.map FieldInit.render).flatten ++ str "\n\t\t\x7d"

/-- The text of a body, from the colon that ends the guard. -/
def Body.render : Body → GoString
  | .returnBase => str ":\n\t\treturn base\n"
  | .returnComposite c => c.render ++ str "\n"

/-- One `case` of the switch. -/
def Branch.render (b : Branch) : GoString :=
  str "\tcase" ++ renderGuard b.guard 0 ++ b.body.render

/-- The branches: the zero branch directly, every further one after a line break. -/
def renderBranches : List Branch → GoString
  | [] => []
  | b :: bs => b.render ++ (bs.map (fun c => str "\n" ++ c.render)).flatten

/-- One adapter type with its method. -/
def Adapter.render (a : Adapter) : GoString :=
  str "type " ++ a.Name ++ str " struct \x7b\n\t" ++ a.Field ++ str " " ++ a.FieldType ++
    str "\n\x7d\n\nfunc (impl *" ++ a.Name ++ str ") " ++ a.Method ++ a.MethodSig ++
    str " \x7b\n\treturn impl." ++ a.Callee ++ str "()\n\x7d\n\n"

/-- The whole text produced by the template. -/
def File.render (f : File) : GoString :=
  str "\npackage " ++ f.Package ++
    str "\n\n// This file has been generated - do not modify\n\nimport (\n\t\"" ++ f.API ++
    str "\"\n)\n\nfunc " ++ f.Function ++ str "(base " ++ f.BaseType ++
    (f.Params.map (fun p => str ", " ++ p.1 ++ str " " ++ p.2)).flatten ++ str ") " ++
    f.BaseType ++ str " \x7b\n\tswitch \x7b\n" ++ renderBranches f.Branches ++
    str "\t\x7d\n\n\treturn nil\n\x7d\n\n" ++ (f.Adapters.map Adapter.render).flatten ++ str "\n"

/-! ## generate -/

/-- The file emitted by `generate`: a panic while the template data is built, `os.Exit(2)` when
the template fails. -/
def generateFile (packageName functionName baseType : GoString)
    (dynamicTypes : List dynamicType) : Except Failure File :=
  match buildVars packageName functionName baseType dynamicTypes with
  | .error e => .error e
  | .ok vars =>
    match execute vars dynamicTypes with
    | none => .error (.exit 2)
    | some file => .ok file

/-- The text `generate` writes to `out`. -/
def generate (packageName functionName baseType : GoString)
    (dynamicTypes : List dynamicType) : Except Failure GoString :=
  match generateFile packageName functionName baseType dynamicTypes with
  | .error e => .error e
  | .ok file => .ok file.render

/-! ## The emitted dispatcher at run time -/

/-- Truth of one conjunct when `nonNil v` tells whether the accessor variable `v` is non-nil. -/
def Conjunct.eval (nonNil : GoString → Bool) (c : Conjunct) : Bool :=
  if c.present then nonNil c.VarName else !(nonNil c.VarName)

/-- Truth of a guard: the `&&` of its conjuncts. -/
def evalGuard (nonNil : GoString → Bool) (guard : List Conjunct) : Bool :=
  guard.all (Conjunct.eval nonNil)

/-- The emitted `switch`: the body of the first case whose guard holds; `none` when no case
matches and control reaches the trailing `return nil`. -/
def dispatch (nonNil : GoString → Bool) : List Branch → Option Body
  | [] => none
  | b :: bs => if evalGuard nonNil b.guard then some b.body else dispatch nonNil bs

/-! ## main -/

/-- The table `asciiSpace` of package `strings`. -/
def asciiSpace (c : Nat) : Bool :=
  c = 9 || c = 10 || c = 11 || c = 12 || c = 13 || c = 32

/-- Second loop of `strings.TrimSpace`, on the reversed remainder `s[start:stop]`: drops ASCII
space from the end and hands over to the Unicode-aware `slow` path at a byte `≥ 0x80`. -/
def trimRight (slow : GoString → GoString) : GoString → GoString
  | [] => []
  | c :: cs =>
    if 0x80 ≤ c then slow (c :: cs).reverse
    else if asciiSpace c then trimRight slow cs
    else (c :: cs).reverse

/-- The function `strings.TrimSpace`: the ASCII fast path is modelled exactly; `slow` stands for
`strings.TrimFunc(·, unicode.IsSpace)`, to which the library falls back at the first
byte `≥ 0x80` met while scanning from either end. -/
def TrimSpace (slow : GoString → GoString) : GoString → GoString
  | [] => []
  | c :: cs =>
    if 0x80 ≤ c then slow (c :: cs)
    else if asciiSpace c then TrimSpace slow cs
    else trimRight slow (c :: cs).reverse

/-- The command-line flags after `pflag.Parse`. -/
structure Flags where
  target : GoString
  pkg : GoString
  function : GoString
  base : GoString
  types : List GoString

/-- What lies outside the program text: the Unicode slow path of `strings.TrimSpace`, whether
`os.Create` succeeds for a file name, and whether the final `Write` succeeds. -/
structure World where
  trimUnicode : GoString → GoString
  create : GoString → Bool
  write : Bool

/-- The observable course of one run of `main`. -/
structure Run where
  /-- whether `Usage()` was printed -/
  usage : Bool
  /-- the arguments of the call of `generate`, if it was called -/
  generateCall : Option (GoString × GoString × GoString × List dynamicType)
  /-- the destination (`none` is standard output) and the bytes written to it -/
  written : Option (Option GoString × GoString)
  /-- exit status of the process -/
  status : Nat

/-- The loop of `main` over `*types`: each entry is split at most twice at a comma and the three
parts are indexed; a missing part panics. -/
def parseTypes : List GoString → Except Failure (List dynamicType)
  | [] => .ok []
  | v :: rest =>
    match index (SplitN v 44 3) 0, index (SplitN v 44 3) 1, index (SplitN v 44 3) 2 with
    | .ok a, .ok b, .ok c =>
      match parseTypes rest with
      | .error e => .error e
      | .ok dts => .ok (⟨a, b, c⟩ :: dts)
    | _, _, _ => .error .panic

/-- The name of the output file: `.go` is appended unless already there. -/
def targetName (target : GoString) : GoString :=
  if (str ".go").isSuffixOf target then target else target ++ str ".go"

/-- The function `main`, after flag parsing. -/
def main (w : World) (f : Flags) : Run :=
  if f.base = [] ∨ f.pkg = [] ∨ f.types.length = 0 then
    { usage := true, generateCall := none, written := none, status := 2 }
  else
    match parseTypes f.types with
    | .error e => { usage := false, generateCall := none, written := none, status := e.status }
    | .ok dynamicTypes =>
      let call := some (f.pkg, f.function, f.base, dynamicTypes)
      match generate f.pkg f.function f.base dynamicTypes with
      | .error e => { usage := false, generateCall := call, written := none, status := e.status }
      | .ok buf =>
        let generated := TrimSpace w.trimUnicode buf ++ str "\n"
        if f.target = [] then
          if w.write then
            { usage := false, generateCall := call, written := some (none, generated), status := 0 }
          else { usage := false, generateCall := call, written := none, status := 2 }
        else if w.create (targetName f.target) then
          if w.write then
            { usage := false, generateCall := call
              written := some (some (targetName f.target), generated), status := 0 }
          else { usage := false, generateCall := call, written := none, status := 2 }
        else { usage := false, generateCall := call, written := none, status := 2 }

/-! ## Notions used to state the properties -/

/-- Whether `s` contains the byte `.`. -/
def hasDot (s : GoString) : Bool := (cut 46 s).isSome

/-- Whether `s` has the form `<pkg>.<rest>` with at least one byte after its first `.`. -/
def qualified (s : GoString) : Bool :=
  match cut 46 s with
  | some (_, _ :: _) => true
  | _ => false

/-- A sample capability list: `api.Soc` and `api.Range`. -/
def sampleTypes : List dynamicType :=
  [⟨str "api.Soc", str "SoC", str "func() (float64, error)"⟩,
   ⟨str "api.Range", str "Range", str "func() int64"⟩]

/-- The template data of the sample run. -/
def sampleVars : Vars :=
  match buildVars (str "vehicle") (str "decorate") (str "api.Vehicle") sampleTypes with
  | .ok vars => vars
  | .error _ => ⟨[], [], [], [], [], [], []⟩

/-- The file emitted by the sample run. -/
def sampleFile : File :=
  match generateFile (str "vehicle") (str "decorate") (str "api.Vehicle") sampleTypes with
  | .ok file => file
  | .error _ => ⟨[], [], [], [], [], [], []⟩

/-- The text `generate` writes in the sample run. -/
def sampleText : GoString :=
  match generate (str "vehicle") (str "decorate") (str "api.Vehicle") sampleTypes with
  | .ok text => text
  | .error _ => []

/-- The template data of a run whose base type `api.Soc` is also listed as a capability. -/
def overlapVars : Vars :=
  match buildVars (str "vehicle") (str "decorate") (str "api.Soc") sampleTypes with
  | .ok vars => vars
  | .error _ => ⟨[], [], [], [], [], [], []⟩

/-- A capability list in which the name `api.Soc` occurs twice, with different accessors. -/
def repeatedTypes : List dynamicType :=
  [⟨str "api.Soc", str "SoC", str "func() int"⟩,
   ⟨str "api.Soc", str "Other", str "func() string"⟩]

/-- The file emitted for `repeatedTypes`. -/
def repeatedFile : File :=
  match generateFile (str "vehicle") (str "decorate") (str "api.Vehicle") repeatedTypes with
  | .ok file => file
  | .error _ => ⟨[], [], [], [], [], [], []⟩

/-- The outside world in which file creation and writing succeed. -/
def sampleWorld : World := { trimUnicode := id, create := fun _ => true, write := true }

/-- The flags `-p vehicle -b api.Vehicle -t api.Soc,SoC,func() (float64, error)`. -/
def sampleFlags : Flags :=
  { target := [], pkg := str "vehicle", function := str "decorate", base := str "api.Vehicle"
    types := [str "api.Soc,SoC,func() (float64, error)"] }

/-- The capabilities `a.Soc` and `b.Soc`: distinct names with the same derived variable name. -/
def collidingTypes : List dynamicType :=
  [⟨str "a.Soc", str "SoC", str "func() int"⟩,
   ⟨str "b.Soc", str "SoC", str "func() int"⟩]

/-- The file emitted for `collidingTypes`. -/
def collidingFile : File :=
  match generateFile (str "vehicle") (str "decorate") (str "api.Vehicle") collidingTypes with
  | .ok file => file
  | .error _ => ⟨[], [], [], [], [], [], []⟩

/-- The template data of the run on `collidingTypes`. -/
def collidingVars : Vars :=
  match buildVars (str "vehicle") (str "decorate") (str "api.Vehicle") collidingTypes with
  | .ok vars => vars
  | .error _ => ⟨[], [], [], [], [], [], []⟩

/-- The text `generate` writes for `collidingTypes`. -/
def collidingText : GoString :=
  match generate (str "vehicle") (str "decorate") (str "api.Vehicle") collidingTypes with
  | .ok text => text
  | .error _ => []

/-- The text `generate` writes for the sample capabilities with the base type `api.Soc`. -/
def overlapText : GoString :=
  match generate (str "vehicle") (str "decorate") (str "api.Soc") sampleTypes with
  | .ok text => text
  | .error _ => []

/-! ## The enumerator -/

theorem subsetOfBits_nil {α : Type} (b : Nat) : subsetOfBits ([] : List α) b = [] := rfl

theorem subsetOfBits_cons {α : Type} (x : α) (xs : List α) (b : Nat) :
    subsetOfBits (x :: xs) b =
      (if b % 2 = 1 then [x] else []) ++ subsetOfBits xs (b / 2) := by
  unfold subsetOfBits
  rw [List.length_cons, List.range_succ_eq_map, List.filterMap_cons, List.filterMap_map]
  have hrest : List.filterMap
      ((fun object => if (b >>> object) &&& 1 = 1 then (x :: xs)[object]? else none) ∘ Nat.succ)
      (List.range xs.length) =
      List.filterMap (fun object => if ((b / 2) >>> object) &&& 1 = 1 then xs[object]? else none)
        (List.range xs.length) := by
    apply List.filterMap_congr
    intro i _
    simp [Nat.shiftRight_succ_inside]
  rw [hrest]
  by_cases h : b % 2 = 1 <;> simp [h]

theorem subsetOfBits_sublist {α : Type} (set : List α) : ∀ b, (subsetOfBits set b).Sublist set := by
  induction set with
  | nil => intro b; simp [subsetOfBits_nil]
  | cons x xs ih =>
    intro b
    rw [subsetOfBits_cons]
    by_cases h : b % 2 = 1
    · simpa [h] using (ih (b / 2)).cons₂ x
    · simpa [h] using (ih (b / 2)).cons x

theorem subsetOfBits_eq_nil {α : Type} (set : List α) :
    ∀ b, b < 2 ^ set.length → subsetOfBits set b = [] → b = 0 := by
  induction set with
  | nil => intro b hb _; simpa using hb
  | cons x xs ih =>
    intro b hb h
    rw [subsetOfBits_cons] at h
    by_cases hodd : b % 2 = 1
    · simp [hodd] at h
    · simp [hodd] at h
      have hlt : b / 2 < 2 ^ xs.length := by
        rw [List.length_cons, pow_succ] at hb
        omega
      have := ih (b / 2) hlt h
      omega

theorem subsetOfBits_injective {α : Type} (set : List α) (hnd : set.Nodup) :
    ∀ b c, b < 2 ^ set.length → c < 2 ^ set.length →
      subsetOfBits set b = subsetOfBits set c → b = c := by
  induction set with
  | nil => intro b c hb hc _; simp at hb hc; omega
  | cons x xs ih =>
    intro b c hb hc h
    rw [List.nodup_cons] at hnd
    rw [subsetOfBits_cons, subsetOfBits_cons] at h
    rw [List.length_cons, pow_succ] at hb hc
    have hb2 : b / 2 < 2 ^ xs.length := by omega
    have hc2 : c / 2 < 2 ^ xs.length := by omega
    have hx : ∀ d, x ∉ subsetOfBits xs d := fun d hmem =>
      hnd.1 ((subsetOfBits_sublist xs d).subset hmem)
    by_cases hbo : b % 2 = 1 <;> by_cases hco : c % 2 = 1
    · simp [hbo, hco] at h
      have := ih hnd.2 _ _ hb2 hc2 h
      omega
    · simp [hbo, hco] at h
      exact absurd (h ▸ List.mem_cons_self x _) (hx _)
    · simp [hbo, hco] at h
      exact absurd (h ▸ List.mem_cons_self x _) (hx _)
    · simp [hbo, hco] at h
      have := ih hnd.2 _ _ hb2 hc2 h
      omega

theorem subsetOfBits_surjective {α : Type} {s set : List α} (h : s.Sublist set) :
    ∃ b, b < 2 ^ set.length ∧ subsetOfBits set b = s := by
  induction h with
  | slnil => exact ⟨0, by simp, rfl⟩
  | cons a _ ih =>
    obtain ⟨b, hb, hs⟩ := ih
    refine ⟨2 * b, ?_, ?_⟩
    · rw [List.length_cons, pow_succ]; omega
    · rw [subsetOfBits_cons]
      have h1 : (2 * b) % 2 ≠ 1 := by omega
      have h2 : 2 * b / 2 = b := by omega
      simp [h1, h2, hs]
  | cons₂ a _ ih =>
    obtain ⟨b, hb, hs⟩ := ih
    refine ⟨2 * b + 1, ?_, ?_⟩
    · rw [List.length_cons, pow_succ]; omega
    · rw [subsetOfBits_cons]
      have h1 : (2 * b + 1) % 2 = 1 := by omega
      have h2 : (2 * b + 1) / 2 = b := by omega
      simp [h1, h2, hs]

theorem subsetOfBits_zero {α : Type} (set : List α) : subsetOfBits set 0 = [] := by
  induction set with
  | nil => rfl
  | cons x xs ih => rw [subsetOfBits_cons]; simpa using ih

theorem length_All {α : Type} (set : List α) : (All set).length = 2 ^ set.length - 1 := by
  simp [All, Nat.one_shiftLeft]

theorem mem_All {α : Type} (set s : List α) :
    s ∈ All set ↔ s.Sublist set ∧ s ≠ [] := by
  have hpos : 0 < 2 ^ set.length := Nat.two_pow_pos _
  constructor
  · intro h
    simp only [All, Nat.one_shiftLeft, List.mem_map, List.mem_range'_1] at h
    obtain ⟨b, ⟨hb1, hb2⟩, rfl⟩ := h
    refine ⟨subsetOfBits_sublist set b, fun hnil => ?_⟩
    have := subsetOfBits_eq_nil set b (by omega) hnil
    omega
  · rintro ⟨hsub, hne⟩
    obtain ⟨b, hb, rfl⟩ := subsetOfBits_surjective hsub
    simp only [All, Nat.one_shiftLeft, List.mem_map, List.mem_range'_1]
    refine ⟨b, ⟨?_, by omega⟩, rfl⟩
    rcases Nat.eq_zero_or_pos b with h0 | h0
    · subst h0
      exact absurd (subsetOfBits_zero set) hne
    · exact h0

theorem nodup_All {α : Type} (set : List α) (hnd : set.Nodup) : (All set).Nodup := by
  have hpos : 0 < 2 ^ set.length := Nat.two_pow_pos _
  unfold All
  refine List.Nodup.map_on ?_ (List.nodup_range' _ _)
  intro b hb c hc h
  rw [Nat.one_shiftLeft, List.mem_range'_1] at hb hc
  exact subsetOfBits_injective set hnd b c (by omega) (by omega) h

/-! ## The map of capabilities -/

theorem contains_iff (combo : List GoString) (typ : GoString) :
    contains combo typ = true ↔ typ ∈ combo := by
  induction combo with
  | nil => simp [contains]
  | cons v rest ih =>
    by_cases h : v = typ
    · simp [contains, h]
    · have h' : ¬ typ = v := fun e => h e.symm
      simp [contains, h, h', ih]

theorem mem_keys_mapSet (m : TypesMap) (k : GoString) (v : typeStruct) (k' : GoString) :
    k' ∈ keys (mapSet m k v) ↔ k' = k ∨ k' ∈ keys m := by
  induction m with
  | nil => simp [mapSet, keys]
  | cons e rest ih =>
    obtain ⟨a, b⟩ := e
    by_cases h : a = k
    · subst h; simp [mapSet, keys]
    · simp only [mapSet, h, if_false, keys, List.map_cons, List.mem_cons] at ih ⊢
      rw [ih]
      tauto

theorem nodup_keys_mapSet (m : TypesMap) (k : GoString) (v : typeStruct)
    (h : (keys m).Nodup) : (keys (mapSet m k v)).Nodup := by
  induction m with
  | nil => simp [mapSet, keys]
  | cons e rest ih =>
    obtain ⟨a, b⟩ := e
    have h' : a ∉ keys rest ∧ (keys rest).Nodup := by simpa [keys] using h
    by_cases hk : a = k
    · subst hk; simpa [mapSet, keys] using h
    · have hmem : a ∉ keys (mapSet rest k v) := by
        rw [mem_keys_mapSet]
        exact fun hh => hh.elim hk h'.1
      simp only [mapSet, hk, if_false]
      show (a :: keys (mapSet rest k v)).Nodup
      exact List.nodup_cons.mpr ⟨hmem, ih h'.2⟩

theorem mapGet_mapSet (m : TypesMap) (k : GoString) (v : typeStruct) (k' : GoString) :
    mapGet (mapSet m k v) k' = if k = k' then v else mapGet m k' := by
  induction m with
  | nil => simp [mapSet, mapGet]
  | cons e rest ih =>
    obtain ⟨a, b⟩ := e
    by_cases h : a = k
    · subst h
      by_cases h2 : a = k' <;> simp [mapSet, mapGet, h2]
    · by_cases h2 : a = k'
      · subst h2
        simp [mapSet, mapGet, h, Ne.symm h]
      · simp [mapSet, mapGet, h, h2, ih]

theorem mem_iff_mapGet (m : TypesMap) (h : (keys m).Nodup) (k : GoString) (v : typeStruct) :
    (k, v) ∈ m ↔ k ∈ keys m ∧ mapGet m k = v := by
  induction m with
  | nil => simp [keys]
  | cons e rest ih =>
    obtain ⟨a, b⟩ := e
    have h' : a ∉ keys rest ∧ (keys rest).Nodup := by simpa [keys] using h
    have ih' := ih h'.2
    by_cases hk : a = k
    · subst hk
      have hno : (a, v) ∉ rest := fun hm => h'.1 (by
        simp only [keys, List.mem_map]; exact ⟨(a, v), hm, rfl⟩)
      simp only [List.mem_cons, Prod.mk.injEq, true_and, mapGet, if_true, keys, List.map_cons]
      constructor
      · rintro (h1 | h1)
        · exact ⟨Or.inl trivial, h1.symm⟩
        · exact absurd h1 hno
      · rintro ⟨_, h1⟩; exact Or.inl h1.symm
    · have hk' : ¬ k = a := fun e => hk e.symm
      simp only [List.mem_cons, Prod.mk.injEq, hk', false_and, false_or, mapGet, hk, if_false,
        keys, List.map_cons]
      simpa [keys] using ih'

theorem mem_sortedEntries (m : TypesMap) (e : GoString × typeStruct) :
    e ∈ sortedEntries m ↔ e ∈ m :=
  (List.perm_insertionSort _ m).mem_iff

theorem keys_sortedEntries_perm (m : TypesMap) : (keys (sortedEntries m)).Perm (keys m) :=
  (List.perm_insertionSort _ m).map _

/-- What the first loop of `generate` leaves behind. -/
theorem typesLoop_spec : ∀ (dts : List dynamicType) (m : TypesMap) (c : List GoString)
    (r : TypesMap × List GoString), typesLoop dts m c = .ok r →
    r.2 = c ++ dts.map (fun dt => dt.typ) ∧
    ((keys m).Nodup → (keys r.1).Nodup) ∧
    (∀ k, k ∈ keys r.1 ↔ k ∈ keys m ∨ k ∈ dts.map (fun dt => dt.typ)) ∧
    (∀ k, k ∈ dts.map (fun dt => dt.typ) →
      ∃ dt ∈ dts, dt.typ = k ∧ mkTypeStruct dt = .ok (mapGet r.1 k)) ∧
    (∀ k, k ∉ dts.map (fun dt => dt.typ) → mapGet r.1 k = mapGet m k) := by
  intro dts
  induction dts with
  | nil =>
    intro m c r h
    simp only [typesLoop, Except.ok.injEq] at h
    subst h
    simp
  | cons dt rest ih =>
    intro m c r h
    simp only [typesLoop] at h
    cases hts : mkTypeStruct dt with
    | error e => simp [hts] at h
    | ok ts =>
      simp only [hts] at h
      obtain ⟨h1, h2, h3, h4, h5⟩ := ih _ _ _ h
      refine ⟨by simp [h1], fun hnd => h2 (nodup_keys_mapSet m dt.typ ts hnd), ?_, ?_, ?_⟩
      · intro k
        rw [h3, mem_keys_mapSet]
        simp only [List.map_cons, List.mem_cons]
        tauto
      · intro k hk
        by_cases hin : k ∈ rest.map (fun dt => dt.typ)
        · obtain ⟨dt', hdt', e1, e2⟩ := h4 k hin
          exact ⟨dt', List.mem_cons_of_mem _ hdt', e1, e2⟩
        · have hkd : k = dt.typ := by
            simp only [List.map_cons, List.mem_cons] at hk
            exact hk.resolve_right hin
          refine ⟨dt, List.mem_cons_self _ _, hkd.symm, ?_⟩
          rw [h5 k hin, mapGet_mapSet, if_pos hkd.symm, hts]
      · intro k hk
        simp only [List.map_cons, List.mem_cons, not_or] at hk
        rw [h5 k hk.2, mapGet_mapSet, if_neg (fun e => hk.1 e.symm)]

/-- The template data when `generate` gets as far as running the template. -/
theorem buildVars_spec (p f b : GoString) (dts : List dynamicType) (vars : Vars)
    (h : buildVars p f b dts = .ok vars) :
    vars.Package = p ∧ vars.Function = f ∧ vars.BaseType = b ∧
    index (SplitN b 46 2) 1 = .ok vars.ShortBase ∧
    vars.Combinations = All (dts.map (fun dt => dt.typ)) ∧
    (keys vars.Types).Nodup ∧
    (∀ k, k ∈ keys vars.Types ↔ k ∈ dts.map (fun dt => dt.typ)) ∧
    (∀ e ∈ vars.Types, ∃ dt ∈ dts, dt.typ = e.1 ∧ mkTypeStruct dt = .ok e.2) := by
  unfold buildVars at h
  cases hl : typesLoop dts [] [] with
  | error e => simp [hl] at h
  | ok r =>
    obtain ⟨types, combos⟩ := r
    simp only [hl] at h
    cases hb : index (SplitN b 46 2) 1 with
    | error e => simp [hb] at h
    | ok shortBase =>
      simp only [hb, Except.ok.injEq] at h
      subst h
      obtain ⟨h1, h2, h3, h4, _⟩ := typesLoop_spec dts [] [] _ hl
      have hnd : (keys types).Nodup := h2 (by simp [keys])
      have hk : ∀ k, k ∈ keys types ↔ k ∈ dts.map (fun dt => dt.typ) := by
        intro k; rw [h3]; simp [keys]
      refine ⟨rfl, rfl, rfl, rfl, ?_, hnd, hk, ?_⟩
      · simp only at h1 ⊢; rw [h1]; simp
      · rintro ⟨k, v⟩ he
        obtain ⟨hin, hget⟩ := (mem_iff_mapGet types hnd k v).mp he
        obtain ⟨dt, hdt, e1, e2⟩ := h4 k ((hk k).mp hin)
        exact ⟨dt, hdt, e1, by rw [e2, hget]⟩

/-! ## Guards -/

theorem Conjunct.eval_iff (nonNil : GoString → Bool) (v : GoString) (p : Bool) :
    Conjunct.eval nonNil { VarName := v, present := p } = true ↔ nonNil v = p := by
  cases p <;> cases h : nonNil v <;> simp [Conjunct.eval, h]

theorem evalGuard_entries (nonNil : GoString → Bool) (types : TypesMap)
    (hnd : (keys types).Nodup) (pres : GoString → Bool) :
    evalGuard nonNil ((sortedEntries types).map
      (fun e => { VarName := e.2.VarName, present := pres e.1 })) = true ↔
    ∀ T ∈ keys types, nonNil (mapGet types T).VarName = pres T := by
  simp only [evalGuard, List.all_eq_true, List.mem_map, forall_exists_index, and_imp,
    forall_apply_eq_imp_iff₂, Conjunct.eval_iff, mem_sortedEntries]
  constructor
  · intro h T hT
    have := (mem_iff_mapGet types hnd T (mapGet types T)).mpr ⟨hT, rfl⟩
    exact h _ this
  · rintro h ⟨k, v⟩ he
    obtain ⟨hk, hv⟩ := (mem_iff_mapGet types hnd k v).mp he
    have := h k hk
    rw [hv] at this
    exact this

theorem evalGuard_caseGuard (nonNil : GoString → Bool) (d : CaseData)
    (hnd : (keys d.Types).Nodup) :
    evalGuard nonNil (caseGuard d) = true ↔
    ∀ T ∈ keys d.Types, nonNil (mapGet d.Types T).VarName = contains d.Combo T :=
  evalGuard_entries nonNil d.Types hnd (fun T => contains d.Combo T)

theorem evalGuard_zeroBranch (nonNil : GoString → Bool) (types : TypesMap)
    (hnd : (keys types).Nodup) :
    evalGuard nonNil (zeroBranch types).guard = true ↔
    ∀ T ∈ keys types, nonNil (mapGet types T).VarName = false :=
  evalGuard_entries nonNil types hnd (fun _ => false)

/-- A sublist of a duplicate-free list is fixed by its members. -/
theorem sublist_eq_filter (names C : List GoString) (hnd : names.Nodup) (hC : C.Sublist names)
    (q : GoString → Bool) :
    (∀ T ∈ names, q T = contains C T) ↔ C = names.filter q := by
  constructor
  · intro h
    have hperm : C.Perm (names.filter q) := by
      rw [List.perm_ext_iff_of_nodup (hC.nodup hnd) (hnd.filter _)]
      intro T
      rw [List.mem_filter]
      constructor
      · intro hT
        have hTn := hC.subset hT
        exact ⟨hTn, by rw [h T hTn]; exact (contains_iff C T).mpr hT⟩
      · rintro ⟨hTn, hq⟩
        rw [h T hTn] at hq
        exact (contains_iff C T).mp hq
    exact (hnd.perm_iff_eq_of_sublist hC (List.filter_sublist _)).mp hperm
  · rintro rfl T hT
    cases hq : q T
    · cases hc : contains (List.filter q names) T
      · rfl
      · have := (contains_iff _ _).mp hc
        rw [List.mem_filter] at this
        rw [hq] at this
        exact absurd this.2 (by simp)
    · exact ((contains_iff _ _).mpr (List.mem_filter.mpr ⟨hT, hq⟩)).symm

theorem dispatch_eq_none (nonNil : GoString → Bool) (bs : List Branch) :
    dispatch nonNil bs = none ↔ ∀ b ∈ bs, evalGuard nonNil b.guard = false := by
  induction bs with
  | nil => simp [dispatch]
  | cons b bs ih =>
    cases h : evalGuard nonNil b.guard <;> simp [dispatch, h, ih]

theorem generateFile_spec (p f b : GoString) (dts : List dynamicType) (file : File)
    (h : generateFile p f b dts = .ok file) :
    ∃ vars, buildVars p f b dts = .ok vars ∧ execute vars dts = some file := by
  unfold generateFile at h
  cases hv : buildVars p f b dts with
  | error e => simp [hv] at h
  | ok vars =>
    simp only [hv] at h
    cases he : execute vars dts with
    | none => simp [he] at h
    | some file' =>
      simp only [he, Except.ok.injEq] at h
      exact ⟨vars, rfl, by rw [he, h]⟩

theorem execute_spec (vars : Vars) (dts : List dynamicType) (file : File)
    (h : execute vars dts = some file) :
    file.Package = vars.Package ∧ file.API = vars.API ∧ file.Function = vars.Function ∧
    file.BaseType = vars.BaseType ∧
    file.Params = (ordered vars.Types dts).map (fun t => (t.VarName, t.Signature)) ∧
    file.Branches = zeroBranch vars.Types ::
      vars.Combinations.map (fun combo =>
        caseBranch { BaseType := vars.BaseType
                     Prefix := vars.Function
                     ShortBase := vars.ShortBase
                     Types := vars.Types
                     Combo := combo }) ∧
    adaptersOf vars.Function ((sortedEntries vars.Types).map (fun e => e.2)) =
      some file.Adapters := by
  unfold execute at h
  cases ha : adaptersOf vars.Function ((sortedEntries vars.Types).map (fun e => e.2)) with
  | none => simp [ha] at h
  | some adapters =>
    simp only [ha, Option.some.injEq] at h
    subst h
    exact ⟨rfl, rfl, rfl, rfl, rfl, rfl, rfl⟩

theorem countP_unique {α : Type} [DecidableEq α] (L : List α) (hnd : L.Nodup) (p : α → Bool)
    (P : α) (h : ∀ x ∈ L, (p x = true ↔ x = P)) :
    L.countP p = if P ∈ L then 1 else 0 := by
  induction L with
  | nil => simp
  | cons x xs ih =>
    rw [List.nodup_cons] at hnd
    have ih' := ih hnd.2 (fun y hy => h y (List.mem_cons_of_mem _ hy))
    rw [List.countP_cons, ih']
    by_cases hx : x = P
    · subst hx
      have hp : p x = true := (h x (List.mem_cons_self _ _)).mpr rfl
      simp [hp, hnd.1]
    · have hp : ¬ p x = true := fun hp => hx ((h x (List.mem_cons_self _ _)).mp hp)
      have hP : (P ∈ x :: xs) ↔ P ∈ xs := by
        simp only [List.mem_cons]
        exact ⟨fun hh => hh.resolve_left (fun e => hx e.symm), Or.inr⟩
      simp [hp, hP]

/-- Number of cases whose guard holds. -/
theorem count_guards (nonNil : GoString → Bool) (vars : Vars) (names : List GoString)
    (hnames : names.Nodup) (hcomb : vars.Combinations = All names)
    (hnd : (keys vars.Types).Nodup) (hkeys : ∀ k, k ∈ keys vars.Types ↔ k ∈ names) :
    ((zeroBranch vars.Types ::
      vars.Combinations.map (fun combo =>
        caseBranch { BaseType := vars.BaseType
                     Prefix := vars.Function
                     ShortBase := vars.ShortBase
                     Types := vars.Types
                     Combo := combo })).filter
      (fun br => evalGuard nonNil br.guard)).length = 1 := by
  set q : GoString → Bool := fun T => nonNil (mapGet vars.Types T).VarName with hq
  have hzero : evalGuard nonNil (zeroBranch vars.Types).guard = true ↔ names.filter q = [] := by
    rw [evalGuard_zeroBranch nonNil vars.Types hnd, List.filter_eq_nil_iff]
    constructor
    · intro h T hT; simp [hq, h T ((hkeys T).mpr hT)]
    · intro h T hT; simpa [hq] using h T ((hkeys T).mp hT)
  have hcase : ∀ C ∈ All names,
      (evalGuard nonNil (caseBranch { BaseType := vars.BaseType
                                      Prefix := vars.Function
                                      ShortBase := vars.ShortBase
                                      Types := vars.Types
                                      Combo := C }).guard = true ↔ C = names.filter q) := by
    intro C hC
    have hsub := ((mem_All names C).mp hC).1
    show evalGuard nonNil (caseGuard _) = true ↔ _
    rw [evalGuard_caseGuard nonNil _ hnd, ← sublist_eq_filter names C hnames hsub q]
    constructor
    · intro h T hT; exact h T ((hkeys T).mpr hT)
    · intro h T hT; exact h T ((hkeys T).mp hT)
  rw [← List.countP_eq_length_filter, List.countP_cons, hcomb, List.countP_map]
  have hcount := countP_unique (All names) (nodup_All names hnames)
    ((fun br : Branch => evalGuard nonNil br.guard) ∘ fun combo =>
      caseBranch { BaseType := vars.BaseType
                   Prefix := vars.Function
                   ShortBase := vars.ShortBase
                   Types := vars.Types
                   Combo := combo }) (names.filter q) hcase
  rw [hcount]
  by_cases hP : names.filter q = []
  · have hnot : names.filter q ∉ All names := fun hm => ((mem_All _ _).mp hm).2 hP
    rw [if_neg hnot, if_pos (hzero.mpr hP)]
  · have hin : names.filter q ∈ All names := (mem_All _ _).mpr ⟨List.filter_sublist _, hP⟩
    have : ¬ evalGuard nonNil (zeroBranch vars.Types).guard = true := fun h => hP (hzero.mp h)
    rw [if_pos hin, if_neg this]

/-! ## Properties of the enumeration -/

theorem filter_mem_toFinset (names : List GoString) (S : Finset GoString)
    (hS : S ⊆ names.toFinset) : (names.filter (fun T => decide (T ∈ S))).toFinset = S := by
  ext T
  simp only [List.mem_toFinset, List.mem_filter, decide_eq_true_eq]
  constructor
  · exact fun h => h.2
  · intro h
    exact ⟨List.mem_toFinset.mp (hS h), h⟩

theorem subset_once (names : List GoString) (hnames : names.Nodup) (S : Finset GoString)
    (hne : S.Nonempty) (hS : S ⊆ names.toFinset) :
    ((All names).filter (fun C => decide (C.toFinset = S))).length = 1 := by
  rw [← List.countP_eq_length_filter,
    countP_unique (All names) (nodup_All names hnames) _
      (names.filter (fun T => decide (T ∈ S)))]
  · rw [if_pos]
    rw [mem_All]
    refine ⟨List.filter_sublist _, fun hnil => ?_⟩
    have := filter_mem_toFinset names S hS
    rw [hnil] at this
    rw [← this] at hne
    simp at hne
  · intro C hC
    have hsub := ((mem_All names C).mp hC).1
    rw [decide_eq_true_eq, ← sublist_eq_filter names C hnames hsub]
    constructor
    · rintro rfl T _
      cases hc : contains C T
      · have : T ∉ C := fun h => by simp [(contains_iff C T).mpr h] at hc
        simpa using this
      · simpa using (contains_iff C T).mp hc
    · intro h
      ext T
      rw [List.mem_toFinset]
      constructor
      · intro hT
        have := h T (hsub.subset hT)
        rw [(contains_iff C T).mpr hT] at this
        simpa using this
      · intro hT
        have := h T (List.mem_toFinset.mp (hS hT))
        have hd : decide (T ∈ S) = true := by simpa using hT
        rw [hd] at this
        exact (contains_iff C T).mp this.symm

/-- C3: when the capability names are pairwise distinct, the `Combinations` value built by
`generate` has exactly `2^n - 1` pairwise-distinct entries; every entry is a non-empty,
duplicate-free subsequence of the names with between 1 and `n` members; every non-empty
subsequence of the names occurs exactly once, and so does every non-empty subset of the set of
names; with no capability the list is empty. -/
theorem combinations_are_the_nonempty_subsets (p f b : GoString) (dts : List dynamicType)
    (vars : Vars) (hv : buildVars p f b dts = .ok vars)
    (hnames : (dts.map (fun dt => dt.typ)).Nodup) :
    vars.Combinations.length = 2 ^ dts.length - 1 ∧
    vars.Combinations.Nodup ∧
    (∀ C ∈ vars.Combinations, C ≠ [] ∧ C.Sublist (dts.map (fun dt => dt.typ)) ∧ C.Nodup ∧
      1 ≤ C.length ∧ C.length ≤ dts.length) ∧
    (∀ C : List GoString, C ≠ [] → C.Sublist (dts.map (fun dt => dt.typ)) →
      (vars.Combinations.filter (fun D => decide (D = C))).length = 1) ∧
    (∀ S : Finset GoString, S.Nonempty → S ⊆ (dts.map (fun dt => dt.typ)).toFinset →
      (vars.Combinations.filter (fun C => decide (C.toFinset = S))).length = 1) ∧
    (dts = [] → vars.Combinations = []) := by
  obtain ⟨_, _, _, _, hcomb, _, _, _⟩ := buildVars_spec p f b dts vars hv
  rw [hcomb]
  refine ⟨by simp [length_All], nodup_All _ hnames, ?_, ?_, ?_, ?_⟩
  · intro C hC
    obtain ⟨hsub, hne⟩ := (mem_All _ C).mp hC
    refine ⟨hne, hsub, hsub.nodup hnames, ?_, by simpa using hsub.length_le⟩
    cases C with
    | nil => exact absurd rfl hne
    | cons x xs => simp
  · intro C hne hsub
    rw [← List.countP_eq_length_filter, countP_unique (All _) (nodup_All _ hnames) _ C
      (fun D _ => by simp), if_pos ((mem_All _ C).mpr ⟨hsub, hne⟩)]
  · intro S hne hS
    exact subset_once _ hnames S hne hS
  · rintro rfl
    rfl

/-- C3, on the sample capability list. -/
theorem combinations_are_the_nonempty_subsets_witness :
    sampleVars.Combinations.length = 2 ^ sampleTypes.length - 1 ∧
    sampleVars.Combinations.Nodup ∧
    (∀ C ∈ sampleVars.Combinations,
      C ≠ [] ∧ C.Sublist (sampleTypes.map (fun dt => dt.typ)) ∧ C.Nodup ∧
      1 ≤ C.length ∧ C.length ≤ sampleTypes.length) ∧
    (∀ C : List GoString, C ≠ [] → C.Sublist (sampleTypes.map (fun dt => dt.typ)) →
      (sampleVars.Combinations.filter (fun D => decide (D = C))).length = 1) ∧
    (∀ S : Finset GoString, S.Nonempty → S ⊆ (sampleTypes.map (fun dt => dt.typ)).toFinset →
      (sampleVars.Combinations.filter (fun C => decide (C.toFinset = S))).length = 1) ∧
    (sampleTypes = [] → sampleVars.Combinations = []) :=
  combinations_are_the_nonempty_subsets (str "vehicle") (str "decorate") (str "api.Vehicle")
    sampleTypes sampleVars (by rfl) (by decide)

/-- C7: every combination built by `generate` lists its members in the relative order of the
input list: it is a subsequence of the capability names as supplied. -/
theorem combinations_preserve_order (p f b : GoString) (dts : List dynamicType)
    (vars : Vars) (hv : buildVars p f b dts = .ok vars) :
    ∀ C ∈ vars.Combinations, C.Sublist (dts.map (fun dt => dt.typ)) := by
  obtain ⟨_, _, _, _, hcomb, _, _, _⟩ := buildVars_spec p f b dts vars hv
  rw [hcomb]
  exact fun C hC => ((mem_All _ C).mp hC).1

/-- C7, on the sample capability list and its combination `api.Soc`, `api.Range`. -/
theorem combinations_preserve_order_witness :
    [str "api.Soc", str "api.Range"] ∈ sampleVars.Combinations ∧
    [str "api.Soc", str "api.Range"].Sublist (sampleTypes.map (fun dt => dt.typ)) :=
  ⟨by decide,
   combinations_preserve_order (str "vehicle") (str "decorate") (str "api.Vehicle")
     sampleTypes sampleVars (by rfl) [str "api.Soc", str "api.Range"] (by decide)⟩

/-! ## Properties of the dispatcher -/

theorem typesLoop_each : ∀ (dts : List dynamicType) (m : TypesMap) (c : List GoString)
    (r : TypesMap × List GoString), typesLoop dts m c = .ok r →
    ∀ dt ∈ dts, ∃ ts, mkTypeStruct dt = .ok ts := by
  intro dts
  induction dts with
  | nil => intro m c r _ dt hdt; simp at hdt
  | cons d rest ih =>
    intro m c r h dt hdt
    simp only [typesLoop] at h
    cases hts : mkTypeStruct d with
    | error e => simp [hts] at h
    | ok ts =>
      simp only [hts] at h
      rcases List.mem_cons.mp hdt with rfl | hin
      · exact ⟨ts, hts⟩
      · exact ih _ _ _ h dt hin

theorem buildVars_each (p f b : GoString) (dts : List dynamicType) (vars : Vars)
    (h : buildVars p f b dts = .ok vars) : ∀ dt ∈ dts, ∃ ts, mkTypeStruct dt = .ok ts := by
  unfold buildVars at h
  cases hl : typesLoop dts [] [] with
  | error e => simp [hl] at h
  | ok r => exact typesLoop_each dts [] [] r hl

/-- The derived names of a record depend on the capability name only. -/
theorem mkTypeStruct_names (dt dt' : dynamicType) (ts ts' : typeStruct)
    (h : mkTypeStruct dt = .ok ts) (h' : mkTypeStruct dt' = .ok ts') (ht : dt.typ = dt'.typ) :
    ts.Typ = ts'.Typ ∧ ts.ShortType = ts'.ShortType ∧ ts.VarName = ts'.VarName := by
  unfold mkTypeStruct at h h'
  rw [ht] at h
  cases hi : index (SplitN dt'.typ 46 2) 1 with
  | error e => simp [hi] at h
  | ok short =>
    simp only [hi] at h h'
    cases hb : firstByte short with
    | error e => simp [hb] at h
    | ok c =>
      simp only [hb, Except.ok.injEq] at h h'
      subst h h'
      exact ⟨rfl, rfl, rfl⟩

theorem dedup_length_of_keys (ks names : List GoString) (hnd : ks.Nodup)
    (h : ∀ k, k ∈ ks ↔ k ∈ names) : ks.length = names.dedup.length := by
  apply List.Perm.length_eq
  rw [List.perm_ext_iff_of_nodup hnd (List.nodup_dedup _)]
  intro k
  rw [h k, List.mem_dedup]

/-! ## Composites and adapters -/

theorem filterMap_ite {α β : Type} (l : List α) (q : α → Bool) (g : α → β) :
    l.filterMap (fun e => if q e = true then some (g e) else none) = (l.filter q).map g := by
  induction l with
  | nil => rfl
  | cons x xs ih =>
    cases h : q x <;> simp [List.filterMap_cons, List.filter_cons, h, ih]

theorem typesLoop_last : ∀ (pre : List dynamicType) (dt : dynamicType) (post : List dynamicType)
    (m : TypesMap) (c : List GoString) (r : TypesMap × List GoString),
    typesLoop (pre ++ dt :: post) m c = .ok r → (∀ d ∈ post, d.typ ≠ dt.typ) →
    mkTypeStruct dt = .ok (mapGet r.1 dt.typ) := by
  intro pre
  induction pre with
  | nil =>
    intro dt post m c r h hlast
    simp only [List.nil_append, typesLoop] at h
    cases hts : mkTypeStruct dt with
    | error e => simp [hts] at h
    | ok ts =>
      simp only [hts] at h
      obtain ⟨_, _, _, _, h5⟩ := typesLoop_spec post _ _ r h
      have hnot : dt.typ ∉ post.map (fun d => d.typ) := by
        simp only [List.mem_map, not_exists, not_and]
        exact fun d hd e => hlast d hd e
      rw [h5 _ hnot, mapGet_mapSet, if_pos rfl]
  | cons d rest ih =>
    intro dt post m c r h hlast
    simp only [List.cons_append, typesLoop] at h
    cases hts : mkTypeStruct d with
    | error e => simp [hts] at h
    | ok ts =>
      simp only [hts] at h
      exact ih dt post _ _ r h hlast

theorem buildVars_last (p f b : GoString) (pre : List dynamicType) (dt : dynamicType)
    (post : List dynamicType) (vars : Vars)
    (h : buildVars p f b (pre ++ dt :: post) = .ok vars) (hlast : ∀ d ∈ post, d.typ ≠ dt.typ) :
    mkTypeStruct dt = .ok (mapGet vars.Types dt.typ) := by
  unfold buildVars at h
  cases hl : typesLoop (pre ++ dt :: post) [] [] with
  | error e => simp [hl] at h
  | ok r =>
    obtain ⟨types, combos⟩ := r
    simp only [hl] at h
    cases hb : index (SplitN b 46 2) 1 with
    | error e => simp [hb] at h
    | ok shortBase =>
      simp only [hb, Except.ok.injEq] at h
      subst h
      exact typesLoop_last pre dt post [] [] _ hl hlast

theorem mkTypeStruct_fields (dt : dynamicType) (ts : typeStruct) (h : mkTypeStruct dt = .ok ts) :
    ts.Typ = dt.typ ∧ ts.Signature = dt.signature ∧ ts.Function = dt.function := by
  unfold mkTypeStruct at h
  cases hi : index (SplitN dt.typ 46 2) 1 with
  | error e => simp [hi] at h
  | ok short =>
    simp only [hi] at h
    cases hb : firstByte short with
    | error e => simp [hb] at h
    | ok c =>
      simp only [hb, Except.ok.injEq] at h
      subst h
      exact ⟨rfl, rfl, rfl⟩

theorem adaptersOf_spec (pre : GoString) : ∀ (ts : List typeStruct) (as : List Adapter),
    adaptersOf pre ts = some as →
    as = ts.map (fun t => { Name := pre ++ t.ShortType ++ str "Impl"
                            Field := t.VarName
                            FieldType := t.Signature
                            Method := t.Function
                            MethodSig := t.Signature.drop 4
                            Callee := t.VarName }) ∧
    ∀ t ∈ ts, 4 ≤ t.Signature.length := by
  intro ts
  induction ts with
  | nil =>
    intro as h
    simp only [adaptersOf, Option.some.injEq] at h
    subst h
    simp
  | cons t rest ih =>
    intro as h
    simp only [adaptersOf, adapterOf, slice] at h
    by_cases hlen : 4 ≤ t.Signature.length
    · simp only [hlen, if_true] at h
      cases hr : adaptersOf pre rest with
      | none => simp [hr] at h
      | some as' =>
        simp only [hr, Option.some.injEq] at h
        obtain ⟨h1, h2⟩ := ih as' hr
        subst h
        refine ⟨by rw [List.map_cons, ← h1], ?_⟩
        intro t' ht'
        rcases List.mem_cons.mp ht' with rfl | hin
        · exact hlen
        · exact h2 t' hin
    · simp [hlen] at h

theorem SplitN_two (s : GoString) (sep : Nat) :
    SplitN s sep 2 = match cut sep s with
      | none => [s]
      | some (a, b) => [a, b] := by
  unfold SplitN
  cases h : cut sep s with
  | none => rfl
  | some ab => obtain ⟨a, b⟩ := ab; simp [SplitN]

theorem mkTypeStruct_ok (dt : dynamicType) (h : qualified dt.typ = true) :
    ∃ ts, mkTypeStruct dt = .ok ts := by
  unfold qualified at h
  unfold mkTypeStruct
  rw [SplitN_two]
  cases hc : cut 46 dt.typ with
  | none => simp [hc] at h
  | some ab =>
    obtain ⟨a, b⟩ := ab
    cases b with
    | nil => simp [hc] at h
    | cons c cs => simp [index, firstByte]

theorem typesLoop_ok : ∀ (dts : List dynamicType) (m : TypesMap) (c : List GoString),
    (∀ dt ∈ dts, qualified dt.typ = true) → ∃ r, typesLoop dts m c = .ok r := by
  intro dts
  induction dts with
  | nil => intro m c _; exact ⟨_, rfl⟩
  | cons d rest ih =>
    intro m c h
    obtain ⟨ts, hts⟩ := mkTypeStruct_ok d (h d (List.mem_cons_self _ _))
    obtain ⟨r, hr⟩ := ih (mapSet m d.typ ts) (c ++ [d.typ])
      (fun dt hdt => h dt (List.mem_cons_of_mem _ hdt))
    exact ⟨r, by simp only [typesLoop, hts, hr]⟩

theorem buildVars_ok (p f b : GoString) (dts : List dynamicType)
    (hq : ∀ dt ∈ dts, qualified dt.typ = true) (hb : hasDot b = true) :
    ∃ vars, buildVars p f b dts = .ok vars := by
  obtain ⟨⟨types, combos⟩, hr⟩ := typesLoop_ok dts [] [] hq
  unfold buildVars
  rw [hr, SplitN_two]
  unfold hasDot at hb
  cases hc : cut 46 b with
  | none => simp [hc] at hb
  | some ab => obtain ⟨a, b'⟩ := ab; simp [index]

theorem adaptersOf_ok (pre : GoString) : ∀ (ts : List typeStruct),
    (∀ t ∈ ts, 4 ≤ t.Signature.length) → ∃ as, adaptersOf pre ts = some as := by
  intro ts
  induction ts with
  | nil => intro _; exact ⟨_, rfl⟩
  | cons t rest ih =>
    intro h
    obtain ⟨as, has⟩ := ih (fun t' ht' => h t' (List.mem_cons_of_mem _ ht'))
    have hlen := h t (List.mem_cons_self _ _)
    simp only [adaptersOf, adapterOf, slice, hlen, if_true, has]
    exact ⟨_, rfl⟩

/-- The inputs on which `generate` runs to completion. -/
theorem generateFile_ok (p f b : GoString) (dts : List dynamicType)
    (hq : ∀ dt ∈ dts, qualified dt.typ = true) (hb : hasDot b = true)
    (hs : ∀ dt ∈ dts, 4 ≤ dt.signature.length) :
    ∃ file, generateFile p f b dts = .ok file := by
  obtain ⟨vars, hv⟩ := buildVars_ok p f b dts hq hb
  obtain ⟨_, _, _, _, _, _, _, hrec⟩ := buildVars_spec p f b dts vars hv
  have hsig : ∀ t ∈ (sortedEntries vars.Types).map (fun e => e.2), 4 ≤ t.Signature.length := by
    intro t ht
    obtain ⟨e, he, rfl⟩ := List.mem_map.mp ht
    obtain ⟨dt, hdt, _, hts⟩ := hrec e ((mem_sortedEntries _ e).mp he)
    rw [(mkTypeStruct_fields dt _ hts).2.1]
    exact hs dt hdt
  obtain ⟨as, has⟩ := adaptersOf_ok vars.Function _ hsig
  simp only [generateFile, hv, execute, has]
  exact ⟨_, rfl⟩

/-- C6 as stated fails for a repeated capability name: the first record `api.Soc` of
`repeatedTypes` has the function `SoC` and a signature that begins with `func`, but the only
adapter emitted belongs to the second record; no adapter has a method `SoC` or a field of the
first record's signature. -/
theorem adapter_contract_counterexample :
    generateFile (str "vehicle") (str "decorate") (str "api.Vehicle") repeatedTypes =
      .ok repeatedFile ∧
    (⟨str "api.Soc", str "SoC", str "func() int"⟩ : dynamicType) ∈ repeatedTypes ∧
    str "func() int" = str "func" ++ str "() int" ∧
    repeatedFile.Adapters.length = 1 ∧
    ¬ (∃ a ∈ repeatedFile.Adapters, a.Method = str "SoC" ∨ a.FieldType = str "func() int") := by
  refine ⟨by rfl, by decide, by decide, by decide, by decide⟩

/-- C6, amended: `generate` emits a file whenever the base type contains a `.`, every capability
name has at least one byte after its first `.` and every signature has at least four bytes.
In an emitted file, for every capability record that is the last one of its name in the list
(every record, when the names are pairwise distinct) and whose signature begins with `func`,
there is the adapter named `<function of the dispatcher><ShortType>Impl` with the single field
`<VarName> <signature>` and the single method `<function><signature without func>` whose body is
`return impl.<VarName>()`; one adapter is emitted per distinct capability name. -/
theorem adapter_contract (p f b : GoString) (pre : List dynamicType) (dt : dynamicType)
    (post : List dynamicType) (hlast : ∀ d ∈ post, d.typ ≠ dt.typ)
    (rest : GoString) (hsig : dt.signature = str "func" ++ rest) :
    ((∀ d ∈ pre ++ dt :: post, qualified d.typ = true) → hasDot b = true →
      (∀ d ∈ pre ++ dt :: post, 4 ≤ d.signature.length) →
      ∃ file, generateFile p f b (pre ++ dt :: post) = .ok file) ∧
    ∀ file, generateFile p f b (pre ++ dt :: post) = .ok file →
      ∃ ts, mkTypeStruct dt = .ok ts ∧
        ({ Name := f ++ ts.ShortType ++ str "Impl"
           Field := ts.VarName
           FieldType := dt.signature
           Method := dt.function
           MethodSig := rest
           Callee := ts.VarName } : Adapter) ∈ file.Adapters ∧
        file.Adapters.length = ((pre ++ dt :: post).map (fun d => d.typ)).dedup.length ∧
        Adapter.render { Name := f ++ ts.ShortType ++ str "Impl"
                         Field := ts.VarName
                         FieldType := dt.signature
                         Method := dt.function
                         MethodSig := rest
                         Callee := ts.VarName } =
          str "type " ++ (f ++ ts.ShortType ++ str "Impl") ++ str " struct \x7b\n\t" ++
            ts.VarName ++ str " " ++ dt.signature ++ str "\n\x7d\n\nfunc (impl *" ++
            (f ++ ts.ShortType ++ str "Impl") ++ str ") " ++ dt.function ++ rest ++
            str " \x7b\n\treturn impl." ++ ts.VarName ++ str "()\n\x7d\n\n" := by
  refine ⟨fun hq hb hs => generateFile_ok p f b _ hq hb hs, fun file hgen => ?_⟩
  obtain ⟨vars, hv, he⟩ := generateFile_spec p f b _ file hgen
  obtain ⟨_, hf, _, _, _, hnd, hkeys, _⟩ := buildVars_spec p f b _ vars hv
  obtain ⟨_, _, _, _, _, _, had⟩ := execute_spec vars _ file he
  obtain ⟨hmap, _⟩ := adaptersOf_spec _ _ _ had
  have hts := buildVars_last p f b pre dt post vars hv hlast
  obtain ⟨_, hs, hfn⟩ := mkTypeStruct_fields dt _ hts
  have hk : dt.typ ∈ keys vars.Types := (hkeys _).mpr (by simp)
  have hmem : (dt.typ, mapGet vars.Types dt.typ) ∈ sortedEntries vars.Types :=
    (mem_sortedEntries _ _).mpr ((mem_iff_mapGet vars.Types hnd _ _).mpr ⟨hk, rfl⟩)
  have hdrop : (mapGet vars.Types dt.typ).Signature.drop 4 = rest := by
    rw [hs, hsig]
    exact List.drop_left' (by rfl)
  refine ⟨mapGet vars.Types dt.typ, hts, ?_, ?_, rfl⟩
  · rw [hmap, List.map_map, List.mem_map]
    refine ⟨_, hmem, ?_⟩
    rw [hs] at hdrop
    simp only [Function.comp, hf, hs, hfn, hdrop]
  · rw [hmap, List.length_map, List.length_map]
    have := dedup_length_of_keys (keys (sortedEntries vars.Types))
      ((pre ++ dt :: post).map (fun d => d.typ))
      ((keys_sortedEntries_perm vars.Types).nodup_iff.mpr hnd)
      (fun k => by rw [(keys_sortedEntries_perm vars.Types).mem_iff]; exact hkeys k)
    simpa [keys] using this

/-- C6 (amended), on the second record of the sample capability list. -/
theorem adapter_contract_witness :
    ∃ ts, mkTypeStruct ⟨str "api.Range", str "Range", str "func() int64"⟩ = .ok ts ∧
      ({ Name := str "decorate" ++ ts.ShortType ++ str "Impl"
         Field := ts.VarName
         FieldType := str "func() int64"
         Method := str "Range"
         MethodSig := str "() int64"
         Callee := ts.VarName } : Adapter) ∈ sampleFile.Adapters :=
  match (adapter_contract (str "vehicle") (str "decorate") (str "api.Vehicle")
      [⟨str "api.Soc", str "SoC", str "func() (float64, error)"⟩]
      ⟨str "api.Range", str "Range", str "func() int64"⟩ [] (by decide)
      (str "() int64") (by decide)).2 sampleFile (by rfl) with
  | ⟨ts, h1, h2, _⟩ => ⟨ts, h1, h2⟩

/-! ## main -/

/-- C8: when the base type is empty, or the package name is empty, or no `-type` entry is given,
`main` prints the usage and terminates with status 2; `generate` is not called and nothing is
written. -/
theorem missing_configuration_exits (w : World) (fl : Flags)
    (h : fl.base = [] ∨ fl.pkg = [] ∨ fl.types = []) :
    (main w fl).usage = true ∧ (main w fl).status = 2 ∧ (main w fl).generateCall = none ∧
    (main w fl).written = none := by
  have hc : fl.base = [] ∨ fl.pkg = [] ∨ fl.types.length = 0 := by
    rcases h with h | h | h
    · exact Or.inl h
    · exact Or.inr (Or.inl h)
    · exact Or.inr (Or.inr (by rw [h]; rfl))
  unfold main
  rw [if_pos hc]
  exact ⟨rfl, rfl, rfl, rfl⟩

/-- C8, for a run without base type. -/
theorem missing_configuration_exits_witness :
    (main sampleWorld { sampleFlags with base := [] }).usage = true ∧
    (main sampleWorld { sampleFlags with base := [] }).status = 2 ∧
    (main sampleWorld { sampleFlags with base := [] }).generateCall = none ∧
    (main sampleWorld { sampleFlags with base := [] }).written = none :=
  missing_configuration_exits sampleWorld { sampleFlags with base := [] } (Or.inl rfl)

theorem cut_count (sep : Nat) : ∀ (s a b : GoString), cut sep s = some (a, b) →
    s.count sep = b.count sep + 1 := by
  intro s
  induction s with
  | nil => intro a b h; simp [cut] at h
  | cons c cs ih =>
    intro a b h
    by_cases hc : c = sep
    · subst hc
      simp only [cut, if_true, Option.some.injEq, Prod.mk.injEq] at h
      rw [← h.2]
      simp
    · simp only [cut, hc, if_false] at h
      cases hcut : cut sep cs with
      | none => simp [hcut] at h
      | some ab =>
        obtain ⟨a', b'⟩ := ab
        simp only [hcut, Option.some.injEq, Prod.mk.injEq] at h
        rw [← h.2, List.count_cons_of_ne (fun e => hc e.symm)]
        exact ih a' b' hcut

theorem SplitN_three_short (v : GoString) (h : v.count 44 < 2) :
    index (SplitN v 44 3) 2 = .error .panic := by
  unfold SplitN
  cases h1 : cut 44 v with
  | none => rfl
  | some ab =>
    obtain ⟨a, b⟩ := ab
    have hc := cut_count 44 v a b h1
    simp only
    rw [SplitN_two]
    cases h2 : cut 44 b with
    | none => rfl
    | some cd =>
      obtain ⟨c, d⟩ := cd
      have hc2 := cut_count 44 b c d h2
      omega

theorem parseTypes_error (types : List GoString) (e : Failure)
    (h : parseTypes types = .error e) : e = .panic := by
  induction types generalizing e with
  | nil => simp [parseTypes] at h
  | cons v rest ih =>
    unfold parseTypes at h
    split at h
    · cases hr : parseTypes rest with
      | error e' =>
        simp only [hr, Except.error.injEq] at h
        rw [← h]
        exact ih e' hr
      | ok dts => simp [hr] at h
    · simp only [Except.error.injEq] at h
      exact h.symm

theorem parseTypes_short (types : List GoString) (v : GoString) (hv : v ∈ types)
    (h : v.count 44 < 2) : parseTypes types = .error .panic := by
  induction types with
  | nil => simp at hv
  | cons u rest ih =>
    unfold parseTypes
    split
    · rename_i a b c h0 h1 h2
      rcases List.mem_cons.mp hv with rfl | hin
      · rw [SplitN_three_short v h] at h2
        simp at h2
      · rw [ih hin]
    · rfl

/-- C9: when some `-type` entry has fewer than two commas, and so does not supply the three
fields, `main` terminates with status 2 (after the usage when the required flags are missing,
by the panic of the out-of-range index otherwise); `generate` is not called and nothing is
written. -/
theorem malformed_record_stops (w : World) (fl : Flags) (v : GoString) (hv : v ∈ fl.types)
    (h : v.count 44 < 2) :
    (main w fl).status = 2 ∧ (main w fl).generateCall = none ∧ (main w fl).written = none ∧
    (¬ (fl.base = [] ∨ fl.pkg = [] ∨ fl.types = []) → parseTypes fl.types = .error .panic) := by
  have hp := parseTypes_short fl.types v hv h
  unfold main
  by_cases hc : fl.base = [] ∨ fl.pkg = [] ∨ fl.types.length = 0
  · rw [if_pos hc]
    exact ⟨rfl, rfl, rfl, fun _ => hp⟩
  · rw [if_neg hc, hp]
    exact ⟨rfl, rfl, rfl, fun _ => rfl⟩

/-- C9, for the single entry `api.Soc,SoC`. -/
theorem malformed_record_stops_witness :
    (main sampleWorld { sampleFlags with types := [str "api.Soc,SoC"] }).status = 2 ∧
    (main sampleWorld { sampleFlags with types := [str "api.Soc,SoC"] }).generateCall = none ∧
    (main sampleWorld { sampleFlags with types := [str "api.Soc,SoC"] }).written = none :=
  have h := malformed_record_stops sampleWorld { sampleFlags with types := [str "api.Soc,SoC"] }
    (str "api.Soc,SoC") (List.mem_singleton.mpr rfl) (by decide)
  ⟨h.1, h.2.1, h.2.2.1⟩

/-! ## Output normalisation -/

theorem asciiSpace_lt (c : Nat) (h : asciiSpace c = true) : ¬ 0x80 ≤ c := by
  simp only [asciiSpace, Bool.or_eq_true, decide_eq_true_eq] at h
  omega

theorem TrimSpace_leading (slow : GoString → GoString) (lead s : GoString)
    (h : ∀ c ∈ lead, asciiSpace c = true) : TrimSpace slow (lead ++ s) = TrimSpace slow s := by
  induction lead with
  | nil => rfl
  | cons c cs ih =>
    have hc := h c (List.mem_cons_self _ _)
    rw [List.cons_append, TrimSpace, if_neg (asciiSpace_lt c hc), if_pos hc]
    exact ih (fun d hd => h d (List.mem_cons_of_mem _ hd))

theorem trimRight_trailing (slow : GoString → GoString) (trail s : GoString)
    (h : ∀ c ∈ trail, asciiSpace c = true) : trimRight slow (trail ++ s) = trimRight slow s := by
  induction trail with
  | nil => rfl
  | cons c cs ih =>
    have hc := h c (List.mem_cons_self _ _)
    rw [List.cons_append, trimRight, if_neg (asciiSpace_lt c hc), if_pos hc]
    exact ih (fun d hd => h d (List.mem_cons_of_mem _ hd))

/-- The function `strings.TrimSpace` on ASCII space around a text that begins and ends with an
ASCII byte that is not a space. -/
theorem TrimSpace_sandwich (slow : GoString → GoString) (lead trail mid : GoString) (a z : Nat)
    (hlead : ∀ c ∈ lead, asciiSpace c = true) (htrail : ∀ c ∈ trail, asciiSpace c = true)
    (ha : a < 0x80) (ha' : asciiSpace a = false) (hz : z < 0x80) (hz' : asciiSpace z = false) :
    TrimSpace slow (lead ++ (a :: mid ++ [z]) ++ trail) = a :: mid ++ [z] := by
  rw [List.append_assoc, TrimSpace_leading slow lead _ hlead]
  have hrev : ((a :: mid ++ [z]) ++ trail).reverse = trail.reverse ++ (z :: (a :: mid).reverse) := by
    simp
  have htr : ∀ c ∈ trail.reverse, asciiSpace c = true := fun c hc =>
    htrail c (List.mem_reverse.mp hc)
  show TrimSpace slow (a :: (mid ++ [z] ++ trail)) = _
  rw [TrimSpace, if_neg (by omega), ha']
  simp only [Bool.false_eq_true, if_false]
  have : (a :: (mid ++ [z] ++ trail)).reverse = trail.reverse ++ (z :: (a :: mid).reverse) := by
    simp
  rw [this, trimRight_trailing slow _ _ htr, trimRight, if_neg (by omega), hz']
  simp

/-- The text produced by the template: a line break, a text from `p` to `}`, three line
breaks. -/
theorem render_shape (file : File) :
    ∃ mid, file.render = str "\n" ++ (112 :: mid ++ [125]) ++ str "\n\n\n" := by
  have htail : ∃ init, str "\t\x7d\n\n\treturn nil\n\x7d\n\n" ++
      (file.Adapters.map Adapter.render).flatten = init ++ [125, 10, 10] := by
    rcases List.eq_nil_or_concat file.Adapters with hnil | ⟨L, a, hL⟩
    · rw [hnil]
      exact ⟨str "\t\x7d\n\n\treturn nil\n", by decide⟩
    · rw [hL]
      refine ⟨str "\t\x7d\n\n\treturn nil\n\x7d\n\n" ++ (L.map Adapter.render).flatten ++
        (str "type " ++ a.Name ++ str " struct \x7b\n\t" ++ a.Field ++ str " " ++ a.FieldType ++
          str "\n\x7d\n\nfunc (impl *" ++ a.Name ++ str ") " ++ a.Method ++ a.MethodSig ++
          str " \x7b\n\treturn impl." ++ a.Callee ++ str "()\n"), ?_⟩
      have h1 : str "()\n\x7d\n\n" = str "()\n" ++ [125, 10, 10] := by decide
      simp only [List.map_append, List.flatten_append, List.map_cons, List.map_nil,
        List.flatten_cons, List.flatten_nil, List.append_nil, Adapter.render, h1,
        List.append_assoc, List.concat_eq_append]
  obtain ⟨init, hinit⟩ := htail
  have hp : str "\npackage " = str "\n" ++ (112 :: str "ackage ") := by decide
  have hn : str "\n" = [10] := by decide
  have hnnn : str "\n\n\n" = [10, 10, 10] := by decide
  refine ⟨str "ackage " ++ file.Package ++
    str "\n\n// This file has been generated - do not modify\n\nimport (\n\t\"" ++ file.API ++
    str "\"\n)\n\nfunc " ++ file.Function ++ str "(base " ++ file.BaseType ++
    (file.Params.map (fun p => str ", " ++ p.1 ++ str " " ++ p.2)).flatten ++ str ") " ++
    file.BaseType ++ str " \x7b\n\tswitch \x7b\n" ++ renderBranches file.Branches ++ init, ?_⟩
  unfold File.render
  have hinit' : str "\t\x7d\n\n\treturn nil\n\x7d\n\n" ++
      ((file.Adapters.map Adapter.render).flatten ++ [10]) = init ++ [125, 10, 10, 10] := by
    rw [← List.append_assoc, hinit]
    simp
  simp only [List.append_assoc, hp, hnnn, hn, hinit', List.cons_append, List.nil_append]

theorem main_written (w : World) (fl : Flags) (dest : Option GoString) (bytes : GoString)
    (h : (main w fl).written = some (dest, bytes)) :
    ∃ dts buf, parseTypes fl.types = .ok dts ∧
      generate fl.pkg fl.function fl.base dts = .ok buf ∧
      bytes = TrimSpace w.trimUnicode buf ++ str "\n" := by
  unfold main at h
  by_cases hc : fl.base = [] ∨ fl.pkg = [] ∨ fl.types.length = 0
  · rw [if_pos hc] at h
    simp at h
  · rw [if_neg hc] at h
    cases hp : parseTypes fl.types with
    | error e => simp [hp] at h
    | ok dts =>
      simp only [hp] at h
      cases hg : generate fl.pkg fl.function fl.base dts with
      | error e => simp [hg] at h
      | ok buf =>
        simp only [hg] at h
        refine ⟨dts, buf, rfl, hg, ?_⟩
        by_cases ht : fl.target = []
        · rw [if_pos ht] at h
          by_cases hw : w.write = true
          · rw [if_pos hw] at h
            simp only [Option.some.injEq, Prod.mk.injEq] at h
            exact h.2.symm
          · rw [if_neg hw] at h
            simp at h
        · rw [if_neg ht] at h
          by_cases hcr : w.create (targetName fl.target) = true
          · rw [if_pos hcr] at h
            by_cases hw : w.write = true
            · rw [if_pos hw] at h
              simp only [Option.some.injEq, Prod.mk.injEq] at h
              exact h.2.symm
            · rw [if_neg hw] at h
              simp at h
          · rw [if_neg hcr] at h
            simp at h

theorem generate_shape (p f b : GoString) (dts : List dynamicType) (buf : GoString)
    (h : generate p f b dts = .ok buf) :
    ∃ mid, buf = str "\n" ++ (112 :: mid ++ [125]) ++ str "\n\n\n" := by
  unfold generate at h
  cases hf : generateFile p f b dts with
  | error e => simp [hf] at h
  | ok file =>
    simp only [hf, Except.ok.injEq] at h
    obtain ⟨mid, hmid⟩ := render_shape file
    exact ⟨mid, by rw [← h, hmid]⟩

/-- C10: the bytes `main` writes are the text produced by `generate` without its leading and
trailing white space, followed by one line break.  That text is a line break, a core that
begins with the byte `p` and ends with the byte `}`, and three line breaks; the output is the
core followed by a single line break, so it begins with `p`, ends with a line break preceded by
`}`, and normalising it again gives the same bytes. -/
theorem output_normalised (w : World) (fl : Flags) (dest : Option GoString) (bytes : GoString)
    (h : (main w fl).written = some (dest, bytes)) :
    ∃ dts buf mid, parseTypes fl.types = .ok dts ∧
      generate fl.pkg fl.function fl.base dts = .ok buf ∧
      buf = str "\n" ++ (112 :: mid ++ [125]) ++ str "\n\n\n" ∧
      TrimSpace w.trimUnicode buf = 112 :: mid ++ [125] ∧
      bytes = (112 :: mid ++ [125]) ++ [10] ∧
      asciiSpace 112 = false ∧ asciiSpace 125 = false ∧ asciiSpace 10 = true ∧
      TrimSpace w.trimUnicode bytes ++ str "\n" = bytes := by
  obtain ⟨dts, buf, hp, hg, hb⟩ := main_written w fl dest bytes h
  obtain ⟨mid, hmid⟩ := generate_shape _ _ _ dts buf hg
  have hn : str "\n" = [10] := by decide
  have hnnn : str "\n\n\n" = [10, 10, 10] := by decide
  have htrim : TrimSpace w.trimUnicode buf = 112 :: mid ++ [125] := by
    rw [hmid]
    exact TrimSpace_sandwich w.trimUnicode (str "\n") (str "\n\n\n") mid 112 125
      (by rw [hn]; decide) (by rw [hnnn]; decide) (by decide) (by decide) (by decide) (by decide)
  have hbytes : bytes = (112 :: mid ++ [125]) ++ [10] := by rw [hb, htrim, hn]
  refine ⟨dts, buf, mid, hp, hg, hmid, htrim, hbytes, by decide, by decide, by decide, ?_⟩
  have h2 := TrimSpace_sandwich w.trimUnicode [] [10] mid 112 125
    (by simp) (by decide) (by decide) (by decide) (by decide) (by decide)
  rw [List.nil_append] at h2
  rw [hbytes, h2, hn]

/-- C10, for the sample run writing to standard output. -/
theorem output_normalised_witness :
    ∃ dts buf mid, parseTypes sampleFlags.types = .ok dts ∧
      generate sampleFlags.pkg sampleFlags.function sampleFlags.base dts = .ok buf ∧
      buf = str "\n" ++ (112 :: mid ++ [125]) ++ str "\n\n\n" ∧
      TrimSpace sampleWorld.trimUnicode buf = 112 :: mid ++ [125] ∧
      (match (main sampleWorld sampleFlags).written with
        | some out => out.2
        | none => []) = (112 :: mid ++ [125]) ++ [10] ∧
      asciiSpace 112 = false ∧ asciiSpace 125 = false ∧ asciiSpace 10 = true ∧
      TrimSpace sampleWorld.trimUnicode
        (match (main sampleWorld sampleFlags).written with
          | some out => out.2
          | none => []) ++ str "\n" =
        (match (main sampleWorld sampleFlags).written with
          | some out => out.2
          | none => []) :=
  output_normalised sampleWorld sampleFlags none
    (match (main sampleWorld sampleFlags).written with
      | some out => out.2
      | none => []) (by rfl)

/-! ## Index safety -/

/-- With pairwise-distinct names every input record is the one stored under its name. -/
theorem buildVars_own_record (p f b : GoString) (dts : List dynamicType) (vars : Vars)
    (hv : buildVars p f b dts = .ok vars) (hnames : (dts.map (fun dt => dt.typ)).Nodup)
    (dt : dynamicType) (hdt : dt ∈ dts) :
    mkTypeStruct dt = .ok (mapGet vars.Types dt.typ) := by
  obtain ⟨_, _, _, _, _, hnd, hkeys, hrec⟩ := buildVars_spec p f b dts vars hv
  have hk : dt.typ ∈ keys vars.Types := (hkeys _).mpr (List.mem_map_of_mem _ hdt)
  have hmem : (dt.typ, mapGet vars.Types dt.typ) ∈ vars.Types :=
    (mem_iff_mapGet vars.Types hnd _ _).mpr ⟨hk, rfl⟩
  obtain ⟨dt', hdt', e1, e2⟩ := hrec _ hmem
  have : dt' = dt := List.inj_on_of_nodup_map hnames hdt' hdt e1
  subst this
  exact e2

/-- C18: with pairwise-distinct names, `ordered` returns one record per input capability, in
input order, each being the record derived from that capability; so the emitted function has the
parameters `base <BaseType>` and then, in the order supplied, one parameter per capability named
by its `VarName` and typed with its signature, and the result type is the base type. -/
theorem parameters_in_input_order (p f b : GoString) (dts : List dynamicType) (file : File)
    (hgen : generateFile p f b dts = .ok file)
    (hnames : (dts.map (fun dt => dt.typ)).Nodup) :
    ∃ vars, buildVars p f b dts = .ok vars ∧
      (ordered vars.Types dts).length = dts.length ∧
      List.Forall₂ (fun dt ts => mkTypeStruct dt = .ok ts ∧ ts.Signature = dt.signature)
        dts (ordered vars.Types dts) ∧
      file.Params = (ordered vars.Types dts).map (fun t => (t.VarName, t.Signature)) ∧
      file.Params.map Prod.snd = dts.map (fun dt => dt.signature) ∧
      ∃ before after, file.render = before ++
        (str "func " ++ f ++ str "(base " ++ b ++
          (file.Params.map (fun q => str ", " ++ q.1 ++ str " " ++ q.2)).flatten ++
          str ") " ++ b ++ str " \x7b") ++ after := by
  obtain ⟨vars, hv, he⟩ := generateFile_spec p f b dts file hgen
  obtain ⟨_, hf, hb, _, _, _, _, _⟩ := buildVars_spec p f b dts vars hv
  obtain ⟨_, _, hff, hfb, hpar, _, _⟩ := execute_spec vars dts file he
  have hown := buildVars_own_record p f b dts vars hv hnames
  have hall : List.Forall₂
      (fun dt ts => mkTypeStruct dt = .ok ts ∧ ts.Signature = dt.signature)
      dts (ordered vars.Types dts) := by
    unfold ordered
    rw [List.forall₂_map_right_iff, List.forall₂_same]
    intro dt hdt
    exact ⟨hown dt hdt, (mkTypeStruct_fields dt _ (hown dt hdt)).2.1⟩
  refine ⟨vars, hv, by simp [ordered], hall, hpar, ?_, ?_⟩
  · rw [hpar]
    unfold ordered
    rw [List.map_map, List.map_map]
    apply List.map_congr_left
    intro dt hdt
    exact (mkTypeStruct_fields dt _ (hown dt hdt)).2.1
  · have hF : file.Function = f := hff.trans hf
    have hB : file.BaseType = b := hfb.trans hb
    refine ⟨str "\npackage " ++ file.Package ++
      str "\n\n// This file has been generated - do not modify\n\nimport (\n\t\"" ++ file.API ++
      str "\"\n)\n\n",
      str "\n\tswitch \x7b\n" ++ renderBranches file.Branches ++
      str "\t\x7d\n\n\treturn nil\n\x7d\n\n" ++ (file.Adapters.map Adapter.render).flatten ++
      str "\n", ?_⟩
    have h1 : str "\"\n)\n\nfunc " = str "\"\n)\n\n" ++ str "func " := by decide
    have h2 : str " \x7b\n\tswitch \x7b\n" = str " \x7b" ++ str "\n\tswitch \x7b\n" := by decide
    unfold File.render
    rw [h1, h2, hF, hB]
    simp only [List.append_assoc]

/-- C18, on the sample capability list. -/
theorem parameters_in_input_order_witness :
    ∃ vars, buildVars (str "vehicle") (str "decorate") (str "api.Vehicle") sampleTypes =
        .ok vars ∧
      (ordered vars.Types sampleTypes).length = sampleTypes.length ∧
      List.Forall₂ (fun dt ts => mkTypeStruct dt = .ok ts ∧ ts.Signature = dt.signature)
        sampleTypes (ordered vars.Types sampleTypes) ∧
      sampleFile.Params = (ordered vars.Types sampleTypes).map
        (fun t => (t.VarName, t.Signature)) :=
  match parameters_in_input_order (str "vehicle") (str "decorate") (str "api.Vehicle")
      sampleTypes sampleFile (by rfl) (by decide) with
  | ⟨vars, h1, h2, h3, h4, _⟩ => ⟨vars, h1, h2, h3, h4⟩

theorem caseComposite_inits (d : CaseData) :
    (caseComposite d).Inits =
      ((sortedEntries d.Types).filter (fun e => decide (e.1 ∈ d.Combo))).map
        (fun e => { Field := e.2.ShortType
                    Impl := d.Prefix ++ e.2.ShortType ++ str "Impl"
                    Key := e.2.VarName
                    Value := e.2.VarName }) := by
  have hcont : ∀ T, contains d.Combo T = decide (T ∈ d.Combo) := by
    intro T; rw [Bool.eq_iff_iff, contains_iff]; simp
  simp only [caseComposite, hcont]
  exact filterMap_ite (sortedEntries d.Types) (fun e => decide (e.1 ∈ d.Combo)) _

/-! ## Name derivation -/

theorem cut_append (sep : Nat) (pkg rest : GoString) (h : sep ∉ pkg) :
    cut sep (pkg ++ sep :: rest) = some (pkg, rest) := by
  induction pkg with
  | nil => simp [cut]
  | cons c cs ih =>
    simp only [List.mem_cons, not_or] at h
    have hc : ¬ c = sep := fun e => h.1 e.symm
    have ih' := ih h.2
    rw [List.cons_append, cut, if_neg hc, ih']

/-- The records `generate` derives from a name `<pkg>.<rest>` whose `<rest>` begins with an ASCII
byte: `ShortType` is the text after the first `.`, `VarName` is that text with an ASCII capital
at its head lower-cased, the other fields are copied. -/
theorem name_derivation_ascii (dt : dynamicType) (pkg rest : GoString) (c : Nat)
    (hname : dt.typ = pkg ++ 46 :: c :: rest) (hpkg : 46 ∉ pkg) (hc : c < 0x80) :
    mkTypeStruct dt =
      .ok { Typ := dt.typ
            ShortType := c :: rest
            Signature := dt.signature
            Function := dt.function
            VarName := (if 65 ≤ c ∧ c ≤ 90 then c + 32 else c) :: rest } := by
  unfold mkTypeStruct
  rw [SplitN_two, hname, cut_append 46 pkg (c :: rest) hpkg]
  have hc' : c < 128 := hc
  by_cases hu : 65 ≤ c ∧ c ≤ 90 <;> simp [index, firstByte, ToLower, hc', hu]

/-- The short name of the base type is the text after its first `.`. -/
theorem shortBase_derivation (p f b : GoString) (dts : List dynamicType) (vars : Vars)
    (hv : buildVars p f b dts = .ok vars) (pkg rest : GoString)
    (hname : b = pkg ++ 46 :: rest) (hpkg : 46 ∉ pkg) : vars.ShortBase = rest := by
  obtain ⟨_, _, _, hidx, _⟩ := buildVars_spec p f b dts vars hv
  rw [SplitN_two, hname, cut_append 46 pkg rest hpkg] at hidx
  simp only [index] at hidx
  simpa using hidx.symm

/-- C14 at the capability name `api.Éclair`: the text after the `.` starts with the two-byte
character `É`; `parts[1][:1]` cuts it after its first byte, `strings.ToLower` turns that lone
byte into U+FFFD, and the second byte of `É` stays in front of `clair`.  The recorded `VarName`
is neither `éclair` nor `Éclair`. -/
theorem name_derivation_non_ascii :
    mkTypeStruct ⟨str "api.Éclair", str "Eclair", str "func() int"⟩ =
      .ok { Typ := str "api.Éclair"
            ShortType := str "Éclair"
            Signature := str "func() int"
            Function := str "Eclair"
            VarName := [0xEF, 0xBF, 0xBD, 0x89] ++ str "clair" } ∧
    str "Éclair" = [0xC3, 0x89] ++ str "clair" ∧
    str "éclair" = [0xC3, 0xA9] ++ str "clair" ∧
    [0xEF, 0xBF, 0xBD, 0x89] ++ str "clair" ≠ str "éclair" ∧
    [0xEF, 0xBF, 0xBD, 0x89] ++ str "clair" ≠ str "Éclair" := by
  refine ⟨by rfl, by decide, by decide, by decide, by decide⟩

/-! ## Colliding and repeated names -/

/-- C16: two capabilities with distinct names and the same derived variable name do not stop
`generate` (it emits a file whenever the names are well formed and the signatures have four
bytes): the emitted switch still has the zero branch and one branch per combination, and in the
branch of every combination that holds exactly one of the two names the guard contains both
`<var> != nil` and `<var> == nil` for that variable, so it is false under every assignment. -/
theorem collision_branch_never_matches (p f b : GoString) (dts : List dynamicType)
    (d1 d2 : dynamicType) (h1 : d1 ∈ dts) (h2 : d2 ∈ dts)
    (ts1 ts2 : typeStruct) (hts1 : mkTypeStruct d1 = .ok ts1) (hts2 : mkTypeStruct d2 = .ok ts2)
    (hvar : ts1.VarName = ts2.VarName) :
    ((∀ d ∈ dts, qualified d.typ = true) → hasDot b = true →
      (∀ d ∈ dts, 4 ≤ d.signature.length) → ∃ file, generateFile p f b dts = .ok file) ∧
    ∀ file, generateFile p f b dts = .ok file →
      ∃ vars, buildVars p f b dts = .ok vars ∧
        vars.Combinations.length = 2 ^ dts.length - 1 ∧
        file.Branches = zeroBranch vars.Types ::
          vars.Combinations.map (fun combo =>
            caseBranch { BaseType := vars.BaseType
                         Prefix := vars.Function
                         ShortBase := vars.ShortBase
                         Types := vars.Types
                         Combo := combo }) ∧
        ∀ C ∈ vars.Combinations,
          ((d1.typ ∈ C ∧ d2.typ ∉ C) ∨ (d1.typ ∉ C ∧ d2.typ ∈ C)) →
          ({ VarName := ts1.VarName, present := true } : Conjunct) ∈
            (caseBranch { BaseType := vars.BaseType
                          Prefix := vars.Function
                          ShortBase := vars.ShortBase
                          Types := vars.Types
                          Combo := C }).guard ∧
          ({ VarName := ts1.VarName, present := false } : Conjunct) ∈
            (caseBranch { BaseType := vars.BaseType
                          Prefix := vars.Function
                          ShortBase := vars.ShortBase
                          Types := vars.Types
                          Combo := C }).guard ∧
          ∀ nonNil : GoString → Bool,
            evalGuard nonNil
              (caseBranch { BaseType := vars.BaseType
                            Prefix := vars.Function
                            ShortBase := vars.ShortBase
                            Types := vars.Types
                            Combo := C }).guard = false := by
  refine ⟨fun hq hb hs => generateFile_ok p f b dts hq hb hs, fun file hgen => ?_⟩
  obtain ⟨vars, hv, he⟩ := generateFile_spec p f b dts file hgen
  obtain ⟨_, _, _, _, hcomb, hnd, hkeys, hrec⟩ := buildVars_spec p f b dts vars hv
  obtain ⟨_, _, _, _, _, hbr, _⟩ := execute_spec vars dts file he
  -- the conjunct emitted for a capability of the list
  have hconj : ∀ (d : dynamicType) (ts : typeStruct), d ∈ dts → mkTypeStruct d = .ok ts →
      ∀ C : List GoString,
        ({ VarName := ts.VarName, present := contains C d.typ } : Conjunct) ∈
          (caseBranch { BaseType := vars.BaseType
                        Prefix := vars.Function
                        ShortBase := vars.ShortBase
                        Types := vars.Types
                        Combo := C }).guard := by
    intro d ts hd hts C
    have hk : d.typ ∈ keys vars.Types := (hkeys _).mpr (List.mem_map_of_mem _ hd)
    have hmem : (d.typ, mapGet vars.Types d.typ) ∈ vars.Types :=
      (mem_iff_mapGet vars.Types hnd _ _).mpr ⟨hk, rfl⟩
    obtain ⟨d', _, e1, e2⟩ := hrec _ hmem
    have hn : (mapGet vars.Types d.typ).VarName = ts.VarName :=
      (mkTypeStruct_names d' d _ ts e2 hts e1).2.2
    show _ ∈ caseGuard _
    unfold caseGuard
    rw [List.mem_map]
    exact ⟨_, (mem_sortedEntries _ _).mpr hmem, by simp only [hn]⟩
  refine ⟨vars, hv, by rw [hcomb, length_All, List.length_map], hbr, ?_⟩
  intro C _ hone
  have hc1 := hconj d1 ts1 h1 hts1 C
  have hc2 := hconj d2 ts2 h2 hts2 C
  rw [← hvar] at hc2
  have hboth : ({ VarName := ts1.VarName, present := true } : Conjunct) ∈
        (caseBranch { BaseType := vars.BaseType
                      Prefix := vars.Function
                      ShortBase := vars.ShortBase
                      Types := vars.Types
                      Combo := C }).guard ∧
      ({ VarName := ts1.VarName, present := false } : Conjunct) ∈
        (caseBranch { BaseType := vars.BaseType
                      Prefix := vars.Function
                      ShortBase := vars.ShortBase
                      Types := vars.Types
                      Combo := C }).guard := by
    rcases hone with ⟨hin, hout⟩ | ⟨hout, hin⟩
    · have e1 : contains C d1.typ = true := (contains_iff _ _).mpr hin
      have e2 : contains C d2.typ = false := by
        cases hcc : contains C d2.typ
        · rfl
        · exact absurd ((contains_iff _ _).mp hcc) hout
      rw [e1] at hc1
      rw [e2] at hc2
      exact ⟨hc1, hc2⟩
    · have e1 : contains C d2.typ = true := (contains_iff _ _).mpr hin
      have e2 : contains C d1.typ = false := by
        cases hcc : contains C d1.typ
        · rfl
        · exact absurd ((contains_iff _ _).mp hcc) hout
      rw [e2] at hc1
      rw [e1] at hc2
      exact ⟨hc2, hc1⟩
  refine ⟨hboth.1, hboth.2, fun nonNil => ?_⟩
  cases hg : evalGuard nonNil
      (caseBranch { BaseType := vars.BaseType
                    Prefix := vars.Function
                    ShortBase := vars.ShortBase
                    Types := vars.Types
                    Combo := C }).guard
  · rfl
  · simp only [evalGuard, List.all_eq_true] at hg
    have t1 := hg _ hboth.1
    have t2 := hg _ hboth.2
    simp only [Conjunct.eval, if_true] at t1
    simp [Conjunct.eval, t1] at t2

/-- C16, on the capabilities `a.Soc` and `b.Soc` and the combination `a.Soc`. -/
theorem collision_branch_never_matches_witness :
    ∃ vars, buildVars (str "vehicle") (str "decorate") (str "api.Vehicle") collidingTypes =
        .ok vars ∧
      [str "a.Soc"] ∈ vars.Combinations ∧
      ∀ nonNil : GoString → Bool,
        evalGuard nonNil
          (caseBranch { BaseType := vars.BaseType
                        Prefix := vars.Function
                        ShortBase := vars.ShortBase
                        Types := vars.Types
                        Combo := [str "a.Soc"] }).guard = false :=
  match (collision_branch_never_matches (str "vehicle") (str "decorate") (str "api.Vehicle")
      collidingTypes ⟨str "a.Soc", str "SoC", str "func() int"⟩
      ⟨str "b.Soc", str "SoC", str "func() int"⟩ (by decide) (by decide)
      ⟨str "a.Soc", str "Soc", str "func() int", str "SoC", str "soc"⟩
      ⟨str "b.Soc", str "Soc", str "func() int", str "SoC", str "soc"⟩
      (by rfl) (by rfl) rfl).2 collidingFile (by rfl) with
  | ⟨vars, hv, _, _, hall⟩ =>
    have hmem : [str "a.Soc"] ∈ vars.Combinations := by
      rw [(buildVars_spec _ _ _ _ vars hv).2.2.2.2.1]
      decide
    ⟨vars, hv, hmem, (hall [str "a.Soc"] hmem (Or.inl ⟨by decide, by decide⟩)).2.2⟩

theorem subsetOfBits_pow {α : Type} : ∀ (set : List α) (i : Nat) (x : α),
    set[i]? = some x → subsetOfBits set (2 ^ i) = [x] := by
  intro set
  induction set with
  | nil => intro i x h; simp at h
  | cons y ys ih =>
    intro i x h
    rw [subsetOfBits_cons]
    cases i with
    | zero =>
      simp only [List.getElem?_cons_zero, Option.some.injEq] at h
      subst h
      simp [subsetOfBits_zero]
    | succ k =>
      simp only [List.getElem?_cons_succ] at h
      have h1 : (2 ^ (k + 1)) % 2 ≠ 1 := by rw [pow_succ]; omega
      have h2 : 2 ^ (k + 1) / 2 = 2 ^ k := by rw [pow_succ]; omega
      simp [h1, h2, ih k x h]

theorem All_getElem? {α : Type} (set : List α) (b : Nat) (h1 : 1 ≤ b)
    (h2 : b < 2 ^ set.length) : (All set)[b - 1]? = some (subsetOfBits set b) := by
  unfold All
  rw [List.getElem?_map, Nat.one_shiftLeft, List.getElem?_range' _ _ (by omega)]
  simp only [Option.map_some', Option.some.injEq]
  congr 1
  omega

/-- A list with a repeated member has the same singleton at two places of its enumeration. -/
theorem All_repeated {α : Type} (set : List α) (h : ¬ set.Nodup) :
    ∃ i j s, i < j ∧ j < (All set).length ∧ (All set)[i]? = some s ∧ (All set)[j]? = some s := by
  rw [List.nodup_iff_getElem?_ne_getElem?] at h
  push_neg at h
  obtain ⟨i, j, hij, hj, heq⟩ := h
  have hi : i < set.length := by omega
  have hx : set[i]? = some set[i] := List.getElem?_eq_getElem hi
  have hy : set[j]? = some set[i] := by rw [← heq, hx]
  have hpi : (2 : Nat) ^ i < 2 ^ j := Nat.pow_lt_pow_right (by decide) hij
  have hpj : (2 : Nat) ^ j < 2 ^ set.length := Nat.pow_lt_pow_right (by decide) hj
  have hposi : 0 < 2 ^ i := Nat.two_pow_pos _
  refine ⟨2 ^ i - 1, 2 ^ j - 1, [set[i]], by omega, by rw [length_All]; omega, ?_, ?_⟩
  · rw [All_getElem? set (2 ^ i) (by omega) (by omega), subsetOfBits_pow set i _ hx]
  · rw [All_getElem? set (2 ^ j) (by omega) (by omega), subsetOfBits_pow set j _ hy]

/-- C17: when some capability name occurs at least twice in a list of `n` records, the `types`
map ends with fewer than `n` entries while `Combinations` still has `2^n - 1` entries, two of
which (at different places) are the same list; the emitted switch then has two cases at
different places with the same guard, of which the second can only be reached when the first,
which is tried before it, has failed on the same guard. -/
theorem repeated_names_not_deduplicated (p f b : GoString) (dts : List dynamicType)
    (vars : Vars) (hv : buildVars p f b dts = .ok vars)
    (hrep : ¬ (dts.map (fun dt => dt.typ)).Nodup) :
    vars.Types.length < dts.length ∧
    vars.Combinations.length = 2 ^ dts.length - 1 ∧
    ¬ vars.Combinations.Nodup ∧
    (∃ i j C, i < j ∧ j < vars.Combinations.length ∧
      vars.Combinations[i]? = some C ∧ vars.Combinations[j]? = some C) ∧
    ∀ file, execute vars dts = some file →
      ∃ i j bi bj, i < j ∧ j < file.Branches.length ∧
        file.Branches[i]? = some bi ∧ file.Branches[j]? = some bj ∧ bi.guard = bj.guard ∧
        ∀ nonNil : GoString → Bool, evalGuard nonNil bj.guard = true →
          dispatch nonNil (file.Branches.drop i) = some bi.body := by
  obtain ⟨_, _, _, _, hcomb, hnd, hkeys, _⟩ := buildVars_spec p f b dts vars hv
  obtain ⟨i, j, C, hij, hj, hCi, hCj⟩ := All_repeated (dts.map (fun dt => dt.typ)) hrep
  rw [← hcomb] at hj hCi hCj
  have hlen : vars.Types.length < dts.length := by
    have h1 : (keys vars.Types).length = (dts.map (fun dt => dt.typ)).dedup.length :=
      dedup_length_of_keys _ _ hnd hkeys
    have h2 : (dts.map (fun dt => dt.typ)).dedup.length < (dts.map (fun dt => dt.typ)).length := by
      rcases Nat.lt_or_ge (dts.map (fun dt => dt.typ)).dedup.length
          (dts.map (fun dt => dt.typ)).length with hlt | hge
      · exact hlt
      · have hle := (List.dedup_sublist (dts.map (fun dt => dt.typ))).length_le
        have heq := (List.dedup_sublist (dts.map (fun dt => dt.typ))).eq_of_length
          (Nat.le_antisymm hle hge)
        exact absurd (List.dedup_eq_self.mp heq) hrep
    simp only [keys, List.length_map] at h1 h2
    omega
  refine ⟨hlen, by rw [hcomb, length_All, List.length_map], ?_, ⟨i, j, C, hij, hj, hCi, hCj⟩, ?_⟩
  · intro hn
    rw [List.nodup_iff_getElem?_ne_getElem?] at hn
    exact hn i j hij hj (by rw [hCi, hCj])
  · intro file he
    obtain ⟨_, _, _, _, _, hbr, _⟩ := execute_spec vars dts file he
    have hget : ∀ k, vars.Combinations[k]? = some C →
        file.Branches[k + 1]? =
          some (caseBranch { BaseType := vars.BaseType
                             Prefix := vars.Function
                             ShortBase := vars.ShortBase
                             Types := vars.Types
                             Combo := C }) := by
      intro k hk
      rw [hbr, List.getElem?_cons_succ, List.getElem?_map, hk]
      rfl
    refine ⟨i + 1, j + 1, _, _, by omega, ?_, hget i hCi, hget j hCj, rfl, ?_⟩
    · rw [hbr, List.length_cons, List.length_map]
      omega
    · intro nonNil hg
      have hd : file.Branches.drop (i + 1) =
          caseBranch { BaseType := vars.BaseType
                       Prefix := vars.Function
                       ShortBase := vars.ShortBase
                       Types := vars.Types
                       Combo := C } :: file.Branches.drop (i + 2) := by
        have hlt : i + 1 < file.Branches.length := by
          rw [hbr, List.length_cons, List.length_map]; omega
        have hge := List.getElem?_eq_getElem hlt
        rw [hget i hCi, Option.some.injEq] at hge
        rw [List.drop_eq_getElem_cons hlt, ← hge]
      rw [hd, dispatch, if_pos hg]

/-- C17, on the list in which `api.Soc` occurs twice. -/
theorem repeated_names_not_deduplicated_witness :
    ∃ vars, buildVars (str "vehicle") (str "decorate") (str "api.Vehicle") repeatedTypes =
        .ok vars ∧
      vars.Types.length < repeatedTypes.length ∧
      vars.Combinations.length = 2 ^ repeatedTypes.length - 1 ∧
      ¬ vars.Combinations.Nodup :=
  match buildVars_ok (str "vehicle") (str "decorate") (str "api.Vehicle") repeatedTypes
      (by decide) (by decide) with
  | ⟨vars, hv⟩ =>
    have h := repeated_names_not_deduplicated (str "vehicle") (str "decorate")
      (str "api.Vehicle") repeatedTypes vars hv (by decide)
    ⟨vars, hv, h.1, h.2.1, h.2.2.1⟩

/-! ## The helper dict -/

theorem dictGet_dictSet (d : Dict) (k : GoString) (v : Value) (k' : GoString) :
    dictGet (dictSet d k v) k' = if k = k' then some v else dictGet d k' := by
  induction d with
  | nil => simp [dictSet, dictGet]
  | cons e rest ih =>
    obtain ⟨a, b⟩ := e
    by_cases h : a = k
    · subst h
      by_cases h2 : a = k' <;> simp [dictSet, dictGet, h2]
    · by_cases h2 : a = k'
      · subst h2
        simp [dictSet, dictGet, h, Ne.symm h]
      · simp [dictSet, dictGet, h, h2, ih]

theorem asString_eq_some (x : Value) (s : GoString) :
    x.asString = some s ↔ x = .string s := by
  cases x <;> simp [Value.asString]

theorem getElem?_two_succ {α : Type} (k v : α) (rest : List α) (j : Nat) :
    (k :: v :: rest)[2 * (j + 1)]? = rest[2 * j]? ∧
    (k :: v :: rest)[2 * (j + 1) + 1]? = rest[2 * j + 1]? := by
  have h1 : 2 * (j + 1) = (2 * j + 1) + 1 := by omega
  have h2 : 2 * (j + 1) + 1 = (2 * j + 1 + 1) + 1 := by omega
  constructor
  · rw [h1, List.getElem?_cons_succ, List.getElem?_cons_succ]
  · rw [h2, List.getElem?_cons_succ, List.getElem?_cons_succ]

/-- When the loop of `dict` succeeds, every key position holds a string. -/
theorem dictLoop_ok_keys : ∀ (values : List Value) (d0 d : Dict),
    dictLoop values d0 = .ok d → ∀ j x, values[2 * j]? = some x → ∃ s, x = .string s
  | [], _, _, _ => by intro j x h; simp at h
  | [k], d0, d, h => by
    cases hk : k.asString <;> simp [dictLoop, hk] at h
  | k :: v :: rest, d0, d, h => by
    intro j x hx
    cases hk : k.asString with
    | none => simp [dictLoop, hk] at h
    | some key =>
      simp only [dictLoop, hk] at h
      cases j with
      | zero =>
        simp only [Nat.mul_zero, List.getElem?_cons_zero, Option.some.injEq] at hx
        exact ⟨key, by rw [← hx]; exact (asString_eq_some k key).mp hk⟩
      | succ i =>
        rw [(getElem?_two_succ k v rest i).1] at hx
        exact dictLoop_ok_keys rest _ d h i x hx

/-- On an even number of arguments whose key positions hold strings the loop succeeds. -/
theorem dictLoop_ok : ∀ (values : List Value) (d0 : Dict), values.length % 2 = 0 →
    (∀ j x, values[2 * j]? = some x → ∃ s, x = .string s) → ∃ d, dictLoop values d0 = .ok d
  | [], d0, _, _ => ⟨d0, rfl⟩
  | [k], _, hl, _ => by simp at hl
  | k :: v :: rest, d0, hl, hs => by
    obtain ⟨key, hkey⟩ := hs 0 k (by simp)
    subst hkey
    have hl' : rest.length % 2 = 0 := by
      simp only [List.length_cons] at hl
      omega
    obtain ⟨d, hd⟩ := dictLoop_ok rest (dictSet d0 key v) hl'
      (fun j x hx => hs (j + 1) x (by rw [(getElem?_two_succ _ v rest j).1]; exact hx))
    exact ⟨d, by simp only [dictLoop, Value.asString, hd]⟩

/-- The bindings of the map built by the loop of `dict`. -/
theorem dictLoop_spec : ∀ (values : List Value) (d0 d : Dict), dictLoop values d0 = .ok d →
    ∀ key w, dictGet d key = some w ↔
      (∃ j, values[2 * j]? = some (.string key) ∧ values[2 * j + 1]? = some w ∧
        ∀ j', j < j' → values[2 * j']? ≠ some (.string key)) ∨
      ((∀ j, values[2 * j]? ≠ some (.string key)) ∧ dictGet d0 key = some w)
  | [], d0, d, h => by
    simp only [dictLoop, Except.ok.injEq] at h
    subst h
    simp
  | [k], d0, d, h => by
    cases hk : k.asString <;> simp [dictLoop, hk] at h
  | k :: v :: rest, d0, d, h => by
    intro key w
    cases hk : k.asString with
    | none => simp [dictLoop, hk] at h
    | some key0 =>
      simp only [dictLoop, hk] at h
      have hk0 : k = .string key0 := (asString_eq_some k key0).mp hk
      subst hk0
      rw [dictLoop_spec rest _ d h key w, dictGet_dictSet]
      constructor
      · rintro (⟨j, h1, h2, h3⟩ | ⟨hno, hget⟩)
        · refine Or.inl ⟨j + 1, ?_, ?_, ?_⟩
          · rw [(getElem?_two_succ _ v rest j).1]; exact h1
          · rw [(getElem?_two_succ _ v rest j).2]; exact h2
          · intro j' hj'
            obtain ⟨i, rfl⟩ : ∃ i, j' = i + 1 := ⟨j' - 1, by omega⟩
            rw [(getElem?_two_succ _ v rest i).1]
            exact h3 i (by omega)
        · by_cases he : key0 = key
          · subst he
            rw [if_pos rfl] at hget
            refine Or.inl ⟨0, by simp, by simpa using hget, ?_⟩
            intro j' hj'
            obtain ⟨i, rfl⟩ : ∃ i, j' = i + 1 := ⟨j' - 1, by omega⟩
            rw [(getElem?_two_succ _ v rest i).1]
            exact hno i
          · rw [if_neg he] at hget
            refine Or.inr ⟨?_, hget⟩
            intro j
            cases j with
            | zero => simpa using he
            | succ i =>
              rw [(getElem?_two_succ _ v rest i).1]
              exact hno i
      · rintro (⟨j, h1, h2, h3⟩ | ⟨hno, hget⟩)
        · cases j with
          | zero =>
            simp only [Nat.mul_zero, List.getElem?_cons_zero, Option.some.injEq,
              Value.string.injEq] at h1
            simp only [Nat.mul_zero, Nat.zero_add, List.getElem?_cons_succ,
              List.getElem?_cons_zero, Option.some.injEq] at h2
            refine Or.inr ⟨?_, by rw [if_pos h1, h2]⟩
            intro i
            have := h3 (i + 1) (by omega)
            rw [(getElem?_two_succ _ v rest i).1] at this
            exact this
          | succ i =>
            rw [(getElem?_two_succ _ v rest i).1] at h1
            rw [(getElem?_two_succ _ v rest i).2] at h2
            refine Or.inl ⟨i, h1, h2, ?_⟩
            intro j' hj'
            have := h3 (j' + 1) (by omega)
            rw [(getElem?_two_succ _ v rest j').1] at this
            exact this
        · have h0 := hno 0
          simp only [Nat.mul_zero, List.getElem?_cons_zero, ne_eq, Option.some.injEq,
            Value.string.injEq] at h0
          refine Or.inr ⟨?_, by rw [if_neg h0]; exact hget⟩
          intro i
          have := hno (i + 1)
          rw [(getElem?_two_succ _ v rest i).1] at this
          exact this

/-- The keys of the map built by the loop of `dict`. -/
theorem dictLoop_keys : ∀ (values : List Value) (d0 d : Dict), dictLoop values d0 = .ok d →
    ∀ key, (∃ w, dictGet d key = some w) ↔
      (∃ j, values[2 * j]? = some (.string key)) ∨ ∃ w, dictGet d0 key = some w
  | [], d0, d, h => by
    simp only [dictLoop, Except.ok.injEq] at h
    subst h
    simp
  | [k], d0, d, h => by
    cases hk : k.asString <;> simp [dictLoop, hk] at h
  | k :: v :: rest, d0, d, h => by
    intro key
    cases hk : k.asString with
    | none => simp [dictLoop, hk] at h
    | some key0 =>
      simp only [dictLoop, hk] at h
      have hk0 : k = .string key0 := (asString_eq_some k key0).mp hk
      subst hk0
      rw [dictLoop_keys rest _ d h key]
      simp only [dictGet_dictSet]
      constructor
      · rintro (⟨j, hj⟩ | ⟨w, hw⟩)
        · exact Or.inl ⟨j + 1, by rw [(getElem?_two_succ _ v rest j).1]; exact hj⟩
        · by_cases he : key0 = key
          · exact Or.inl ⟨0, by simp [he]⟩
          · rw [if_neg he] at hw
            exact Or.inr ⟨w, hw⟩
      · rintro (⟨j, hj⟩ | ⟨w, hw⟩)
        · cases j with
          | zero =>
            simp only [Nat.mul_zero, List.getElem?_cons_zero, Option.some.injEq,
              Value.string.injEq] at hj
            exact Or.inr ⟨v, by rw [if_pos hj]⟩
          | succ i =>
            rw [(getElem?_two_succ _ v rest i).1] at hj
            exact Or.inl ⟨i, hj⟩
        · by_cases he : key0 = key
          · exact Or.inr ⟨v, by rw [if_pos he]⟩
          · exact Or.inr ⟨w, by rw [if_neg he]; exact hw⟩

theorem dictLoop_error_kind : ∀ (values : List Value) (d0 : Dict) (e : DictError),
    values.length % 2 = 0 → dictLoop values d0 = .error e → e = .keysMustBeStrings
  | [], _, _, _, h => by simp [dictLoop] at h
  | [k], _, _, hl, _ => by simp at hl
  | k :: v :: rest, d0, e, hl, h => by
    cases hk : k.asString with
    | none =>
      simp only [dictLoop, hk, Except.error.injEq] at h
      exact h.symm
    | some key =>
      simp only [dictLoop, hk] at h
      have hl' : rest.length % 2 = 0 := by
        simp only [List.length_cons] at hl
        omega
      exact dictLoop_error_kind rest _ e hl' h

theorem asString_eq_none (x : Value) : x.asString = none ↔ ¬ ∃ s, x = .string s := by
  cases x <;> simp [Value.asString]

/-- C11: `dict` returns an error exactly when the number of arguments is odd or some argument
at an even index is not a string (it never panics); otherwise the map it returns has exactly
the strings at the even indices as keys, and every key is bound to the argument that follows its
last occurrence, so every key-value pair of the call is in the map unless a later pair has the
same key. -/
theorem dict_contract (values : List Value) :
    ((∃ e, dict values = .error e) ↔
      (values.length % 2 = 1 ∨ ∃ j x, values[2 * j]? = some x ∧ x.asString = none)) ∧
    (values.length % 2 = 1 → dict values = .error .invalidCall) ∧
    dict values ≠ .error .panic ∧
    ∀ d, dict values = .ok d →
      (∀ key, (∃ w, dictGet d key = some w) ↔ ∃ j, values[2 * j]? = some (.string key)) ∧
      (∀ key w, dictGet d key = some w ↔
        ∃ j, values[2 * j]? = some (.string key) ∧ values[2 * j + 1]? = some w ∧
          ∀ j', j < j' → values[2 * j']? ≠ some (.string key)) ∧
      (∀ j key w, 2 * j + 1 < values.length → values[2 * j]? = some (.string key) →
        values[2 * j + 1]? = some w →
        ∃ w', dictGet d key = some w' ∧
          ((∀ j', j < j' → values[2 * j']? ≠ some (.string key)) → w' = w)) := by
  have hodd : values.length % 2 = 1 → dict values = .error .invalidCall := by
    intro h
    unfold dict
    rw [if_pos (by omega)]
  refine ⟨?_, hodd, ?_, ?_⟩
  · constructor
    · rintro ⟨e, he⟩
      by_cases hl : values.length % 2 = 1
      · exact Or.inl hl
      · right
        have hl' : values.length % 2 = 0 := by omega
        by_contra hno
        have hall : ∀ j x, values[2 * j]? = some x → ∃ s, x = .string s := by
          intro j x hx
          by_contra hs
          exact hno ⟨j, x, hx, (asString_eq_none x).mpr hs⟩
        obtain ⟨d, hd⟩ := dictLoop_ok values [] hl' hall
        unfold dict at he
        rw [if_neg (by omega), hd] at he
        simp at he
    · rintro (hl | ⟨j, x, hx, hnone⟩)
      · exact ⟨_, hodd hl⟩
      · cases hd : dict values with
        | error e => exact ⟨e, rfl⟩
        | ok d =>
          exfalso
          unfold dict at hd
          by_cases hl : values.length % 2 ≠ 0
          · rw [if_pos hl] at hd
            simp at hd
          · rw [if_neg hl] at hd
            exact (asString_eq_none x).mp hnone (dictLoop_ok_keys values [] d hd j x hx)
  · intro hp
    unfold dict at hp
    by_cases hl : values.length % 2 ≠ 0
    · rw [if_pos hl] at hp
      simp at hp
    · rw [if_neg hl] at hp
      have := dictLoop_error_kind values [] _ (by omega) hp
      simp at this
  · intro d hd
    unfold dict at hd
    by_cases hl : values.length % 2 ≠ 0
    · rw [if_pos hl] at hd
      simp at hd
    · rw [if_neg hl] at hd
      have hkeys : ∀ key, (∃ w, dictGet d key = some w) ↔
          ∃ j, values[2 * j]? = some (.string key) := by
        intro key
        rw [dictLoop_keys values [] d hd key]
        simp [dictGet]
      have hbind : ∀ key w, dictGet d key = some w ↔
          ∃ j, values[2 * j]? = some (.string key) ∧ values[2 * j + 1]? = some w ∧
            ∀ j', j < j' → values[2 * j']? ≠ some (.string key) := by
        intro key w
        rw [dictLoop_spec values [] d hd key w]
        simp [dictGet]
      refine ⟨hkeys, hbind, ?_⟩
      intro j key w _ h1 h2
      obtain ⟨w', hw'⟩ := (hkeys key).mpr ⟨j, h1⟩
      refine ⟨w', hw', fun hlast => ?_⟩
      have := (hbind key w).mpr ⟨j, h1, h2, hlast⟩
      rw [hw'] at this
      exact Option.some.inj this

/-- The call of `dict` in the template succeeds and binds the five fields of the data handed to
the template `case`. -/
theorem dict_caseArgs (d : CaseData) :
    ∃ m, dict (caseArgs d) = .ok m ∧
      dictGet m (str "BaseType") = some (.string d.BaseType) ∧
      dictGet m (str "Prefix") = some (.string d.Prefix) ∧
      dictGet m (str "ShortBase") = some (.string d.ShortBase) ∧
      dictGet m (str "Types") = some (.types d.Types) ∧
      dictGet m (str "Combo") = some (.strings d.Combo) := by
  have h12 : str "BaseType" ≠ str "Prefix" := by decide
  have h13 : str "BaseType" ≠ str "ShortBase" := by decide
  have h14 : str "BaseType" ≠ str "Types" := by decide
  have h15 : str "BaseType" ≠ str "Combo" := by decide
  have h23 : str "Prefix" ≠ str "ShortBase" := by decide
  have h24 : str "Prefix" ≠ str "Types" := by decide
  have h25 : str "Prefix" ≠ str "Combo" := by decide
  have h34 : str "ShortBase" ≠ str "Types" := by decide
  have h35 : str "ShortBase" ≠ str "Combo" := by decide
  have h45 : str "Types" ≠ str "Combo" := by decide
  refine ⟨[(str "BaseType", .string d.BaseType), (str "Prefix", .string d.Prefix),
    (str "ShortBase", .string d.ShortBase), (str "Types", .types d.Types),
    (str "Combo", .strings d.Combo)], ?_, ?_, ?_, ?_, ?_, ?_⟩
  · simp [dict, caseArgs, dictLoop, Value.asString, dictSet, h12, h13, h14, h15, h23, h24, h25,
      h34, h35, h45]
  all_goals simp [dictGet, h12, h13, h14, h15, h23, h24, h25, h34, h35, h45]

/-! ## Order of the keys -/

theorem strLess_irrefl : ∀ a : GoString, strLess a a = false
  | [] => rfl
  | x :: xs => by simp [strLess, strLess_irrefl xs]

theorem strLess_trans : ∀ a b c : GoString,
    strLess a b = true → strLess b c = true → strLess a c = true
  | [], [], _, h, _ => by simp [strLess] at h
  | [], _ :: _, [], _, h => by simp [strLess] at h
  | [], _ :: _, _ :: _, _, _ => by simp [strLess]
  | _ :: _, [], _, h, _ => by simp [strLess] at h
  | _ :: _, _ :: _, [], _, h => by simp [strLess] at h
  | x :: xs, y :: ys, z :: zs, h1, h2 => by
    simp only [strLess, Bool.or_eq_true, Bool.and_eq_true, decide_eq_true_eq] at h1 h2 ⊢
    rcases h1 with h1 | ⟨e1, r1⟩ <;> rcases h2 with h2 | ⟨e2, r2⟩
    · exact Or.inl (by omega)
    · exact Or.inl (by omega)
    · exact Or.inl (by omega)
    · exact Or.inr ⟨by omega, strLess_trans xs ys zs r1 r2⟩

theorem strLess_trichotomy : ∀ a b : GoString,
    strLess a b = true ∨ a = b ∨ strLess b a = true
  | [], [] => Or.inr (Or.inl rfl)
  | [], _ :: _ => Or.inl rfl
  | _ :: _, [] => Or.inr (Or.inr rfl)
  | x :: xs, y :: ys => by
    simp only [strLess, Bool.or_eq_true, Bool.and_eq_true, decide_eq_true_eq, List.cons.injEq]
    rcases Nat.lt_trichotomy x y with h | h | h
    · exact Or.inl (Or.inl h)
    · rcases strLess_trichotomy xs ys with r | r | r
      · exact Or.inl (Or.inr ⟨h, r⟩)
      · exact Or.inr (Or.inl ⟨h, r⟩)
      · exact Or.inr (Or.inr (Or.inr ⟨h.symm, r⟩))
    · exact Or.inr (Or.inr (Or.inl h))

theorem strLess_asymm (a b : GoString) (h : strLess a b = true) : strLess b a = false := by
  cases hb : strLess b a
  · rfl
  · have := strLess_trans a b a h hb
    rw [strLess_irrefl] at this
    exact absurd this (by simp)

theorem strLE_total (a b : GoString) : strLE a b = true ∨ strLE b a = true := by
  unfold strLE
  cases h : strLess b a
  · exact Or.inl rfl
  · exact Or.inr (by rw [strLess_asymm b a h]; rfl)

theorem strLE_trans (a b c : GoString) (h1 : strLE a b = true) (h2 : strLE b c = true) :
    strLE a c = true := by
  unfold strLE at h1 h2 ⊢
  simp only [Bool.not_eq_true'] at h1 h2 ⊢
  cases hca : strLess c a
  · rfl
  · exfalso
    rcases strLess_trichotomy a b with r | r | r
    · have := strLess_trans c a b hca r
      rw [h2] at this
      exact absurd this (by simp)
    · subst r
      rw [h2] at hca
      exact absurd hca (by simp)
    · rw [h1] at r
      exact absurd r (by simp)

/-- A template `range` over the map visits the entries in strictly ascending key order. -/
theorem sortedEntries_ascending (m : TypesMap) (hnd : (keys m).Nodup) :
    List.Pairwise (fun x y : GoString × typeStruct => strLess x.1 y.1 = true)
      (sortedEntries m) := by
  have hsorted : List.Pairwise (fun x y : GoString × typeStruct => strLE x.1 y.1 = true)
      (sortedEntries m) :=
    @List.sorted_insertionSort _ (fun x y : GoString × typeStruct => strLE x.1 y.1 = true) _
      ⟨fun x y => strLE_total x.1 y.1⟩ ⟨fun x y z => strLE_trans x.1 y.1 z.1⟩ m
  have hne : List.Pairwise (fun x y : GoString × typeStruct => x.1 ≠ y.1) (sortedEntries m) := by
    have := (keys_sortedEntries_perm m).nodup_iff.mpr hnd
    unfold keys at this
    exact List.pairwise_map.mp this
  refine (hsorted.and hne).imp ?_
  rintro x y ⟨hle, hxy⟩
  rcases strLess_trichotomy x.1 y.1 with r | r | r
  · exact r
  · exact absurd r hxy
  · unfold strLE at hle
    rw [r] at hle
    exact absurd hle (by simp)

/-- The order in which a template visits the map does not depend on how the map stores its
entries. -/
theorem sortedEntries_perm (m m' : TypesMap) (hnd : (keys m).Nodup) (hp : m'.Perm m) :
    sortedEntries m' = sortedEntries m := by
  have hnd' : (keys m').Nodup := (hp.map Prod.fst).nodup_iff.mpr hnd
  have hperm : (sortedEntries m').Perm (sortedEntries m) :=
    ((List.perm_insertionSort _ m').trans hp).trans (List.perm_insertionSort _ m).symm
  exact @List.eq_of_perm_of_sorted _
    (fun x y : GoString × typeStruct => strLess x.1 y.1 = true)
    ⟨fun x y hxy hyx => by
      have := strLess_asymm x.1 y.1 hxy
      rw [hyx] at this
      exact absurd this (by simp)⟩ _ _ hperm
    (sortedEntries_ascending m' hnd') (sortedEntries_ascending m hnd)

theorem mapGet_of_not_mem (m : TypesMap) (k : GoString) (h : k ∉ keys m) :
    mapGet m k = typeStruct.zero := by
  induction m with
  | nil => rfl
  | cons e rest ih =>
    obtain ⟨a, b⟩ := e
    simp only [keys, List.map_cons, List.mem_cons, not_or] at h
    have ha : ¬ a = k := fun e => h.1 e.symm
    simp only [mapGet, ha, if_false]
    exact ih h.2

theorem mapGet_perm (m m' : TypesMap) (hnd : (keys m).Nodup) (hp : m'.Perm m) (k : GoString) :
    mapGet m' k = mapGet m k := by
  have hnd' : (keys m').Nodup := (hp.map Prod.fst).nodup_iff.mpr hnd
  by_cases hk : k ∈ keys m
  · have h1 : (k, mapGet m k) ∈ m := (mem_iff_mapGet m hnd k _).mpr ⟨hk, rfl⟩
    have h2 : (k, mapGet m k) ∈ m' := hp.mem_iff.mpr h1
    exact ((mem_iff_mapGet m' hnd' k _).mp h2).2
  · have hk' : k ∉ keys m' := fun h => hk ((hp.map Prod.fst).mem_iff.mp h)
    rw [mapGet_of_not_mem m k hk, mapGet_of_not_mem m' k hk']

/-! ## Reproducibility -/

/-- C12: the text `generate` produces is a function of its input.  The combinations are the
enumeration of the capability names in input order, each listing its members in input order;
the template visits the capability table in strictly ascending key order, which fixes the order
of the guard conjuncts, composite fields and adapters; and neither that order nor the emitted
file depends on the order in which the map stores its entries, so two runs on the same input
give the same bytes. -/
theorem generation_reproducible (p f b : GoString) (dts : List dynamicType) (vars : Vars)
    (hv : buildVars p f b dts = .ok vars) :
    vars.Combinations = All (dts.map (fun dt => dt.typ)) ∧
    (∀ C ∈ vars.Combinations, C.Sublist (dts.map (fun dt => dt.typ))) ∧
    List.Pairwise (fun x y : GoString × typeStruct => strLess x.1 y.1 = true)
      (sortedEntries vars.Types) ∧
    (∀ types' : TypesMap, types'.Perm vars.Types →
      sortedEntries types' = sortedEntries vars.Types ∧
      ordered types' dts = ordered vars.Types dts ∧
      execute { vars with Types := types' } dts = execute vars dts ∧
      (execute { vars with Types := types' } dts).map File.render =
        (execute vars dts).map File.render) ∧
    (∀ r1 r2, generate p f b dts = r1 → generate p f b dts = r2 → r1 = r2) := by
  obtain ⟨_, _, _, _, hcomb, hnd, _, _⟩ := buildVars_spec p f b dts vars hv
  have hperm : ∀ types' : TypesMap, types'.Perm vars.Types →
      sortedEntries types' = sortedEntries vars.Types ∧
      ordered types' dts = ordered vars.Types dts ∧
      execute { vars with Types := types' } dts = execute vars dts := by
    intro types' hp
    have hs := sortedEntries_perm vars.Types types' hnd hp
    have ho : ordered types' dts = ordered vars.Types dts := by
      unfold ordered
      apply List.map_congr_left
      intro dt _
      exact mapGet_perm vars.Types types' hnd hp dt.typ
    refine ⟨hs, ho, ?_⟩
    simp only [execute, zeroBranch, caseBranch, caseGuard, caseComposite, hs, ho]
  refine ⟨hcomb, ?_, sortedEntries_ascending vars.Types hnd, ?_, ?_⟩
  · intro C hC
    rw [hcomb] at hC
    exact ((mem_All _ C).mp hC).1
  · intro types' hp
    obtain ⟨h1, h2, h3⟩ := hperm types' hp
    exact ⟨h1, h2, h3, by rw [h3]⟩
  · intro r1 r2 h1 h2
    rw [← h1, ← h2]

/-- C12, on the sample capability list with the two entries of the map exchanged. -/
theorem generation_reproducible_witness :
    sampleVars.Combinations = All (sampleTypes.map (fun dt => dt.typ)) ∧
    List.Pairwise (fun x y : GoString × typeStruct => strLess x.1 y.1 = true)
      (sortedEntries sampleVars.Types) ∧
    execute { sampleVars with Types := sampleVars.Types.reverse } sampleTypes =
      execute sampleVars sampleTypes :=
  have h := generation_reproducible (str "vehicle") (str "decorate") (str "api.Vehicle")
    sampleTypes sampleVars (by rfl)
  ⟨h.1, h.2.2.1, (h.2.2.2.1 sampleVars.Types.reverse (List.reverse_perm _)).2.2.1⟩

/-! ## The emitted text -/

theorem intercalate_cons_eq {α : Type} (sep x : List α) (xs : List (List α)) :
    List.intercalate sep (x :: xs) = x ++ (xs.map (fun y => sep ++ y)).flatten := by
  induction xs generalizing x with
  | nil => simp [List.intercalate]
  | cons y ys ih =>
    have h := ih y
    simp only [List.intercalate, List.intersperse_cons₂, List.flatten_cons, List.map_cons,
      List.append_assoc] at h ⊢
    rw [h]

theorem mem_intercalate {α β : Type} (sep : List α) (g : β → List α) (l : List β) (x : β)
    (hx : x ∈ l) : ∃ before after, List.intercalate sep (l.map g) = before ++ g x ++ after := by
  induction l with
  | nil => simp at hx
  | cons y ys ih =>
    rw [List.map_cons, intercalate_cons_eq]
    rcases List.mem_cons.mp hx with rfl | hin
    · exact ⟨[], ((ys.map g).map (fun y => sep ++ y)).flatten, by simp⟩
    · obtain ⟨a, c, hac⟩ := ih hin
      cases ys with
      | nil => simp at hin
      | cons z zs =>
        rw [List.map_cons, intercalate_cons_eq] at hac
        refine ⟨g y ++ sep ++ a, c, ?_⟩
        simp only [List.map_cons, List.flatten_cons, List.append_assoc] at hac ⊢
        rw [hac]

/-- The guard loop prints the conjuncts joined by ` &&`. -/
theorem renderGuard_text (guard : List Conjunct) :
    renderGuard guard 0 = List.intercalate (str " &&")
      (guard.map (fun c => str " " ++ c.VarName ++ str " " ++
        (if c.present = true then str "!=" else str "==") ++ str " nil")) := by
  have hone : ∀ g : List Conjunct, renderGuard g 1 =
      ((g.map (fun c => str " " ++ c.VarName ++ str " " ++
        (if c.present = true then str "!=" else str "==") ++ str " nil")).map
        (fun y => str " &&" ++ y)).flatten := by
    intro g
    induction g with
    | nil => rfl
    | cons c cs ih =>
      simp only [renderGuard, Conjunct.render, List.map_cons, List.flatten_cons, gt_iff_lt,
        Nat.zero_lt_one, if_true, ih, List.append_assoc]
  cases guard with
  | nil => rfl
  | cons c cs =>
    rw [List.map_cons, intercalate_cons_eq]
    simp only [renderGuard, Conjunct.render, gt_iff_lt, Nat.lt_irrefl, if_false, hone cs,
      List.nil_append, List.append_assoc]

/-- The cases are printed one after the other, separated by a line break. -/
theorem renderBranches_text (bs : List Branch) :
    renderBranches bs = List.intercalate (str "\n") (bs.map (fun br =>
      str "\tcase" ++ List.intercalate (str " &&")
        (br.guard.map (fun c => str " " ++ c.VarName ++ str " " ++
          (if c.present = true then str "!=" else str "==") ++ str " nil")) ++
      br.body.render)) := by
  cases bs with
  | nil => rfl
  | cons b rest =>
    rw [List.map_cons, intercalate_cons_eq]
    simp only [renderBranches, Branch.render, renderGuard_text, List.map_map]
    rfl

/-- The text `generate` writes, with the switch spelled out. -/
theorem generate_text (p f b : GoString) (dts : List dynamicType) (file : File)
    (hgen : generateFile p f b dts = .ok file) :
    generate p f b dts = .ok
      (str "\npackage " ++ p ++
        str "\n\n// This file has been generated - do not modify\n\nimport (\n\t\"" ++
        str "github.com/andig/evcc/api" ++ str "\"\n)\n\nfunc " ++ f ++ str "(base " ++ b ++
        (file.Params.map (fun q => str ", " ++ q.1 ++ str " " ++ q.2)).flatten ++ str ") " ++
        b ++ str " \x7b\n" ++
        (str "\tswitch \x7b\n" ++
          List.intercalate (str "\n") (file.Branches.map (fun br =>
            str "\tcase" ++ List.intercalate (str " &&")
              (br.guard.map (fun c => str " " ++ c.VarName ++ str " " ++
                (if c.present = true then str "!=" else str "==") ++ str " nil")) ++
            br.body.render)) ++
          str "\t\x7d\n\n\treturn nil\n\x7d\n\n") ++
        ((file.Adapters.map Adapter.render).flatten ++ str "\n")) := by
  obtain ⟨vars, hv, he⟩ := generateFile_spec p f b dts file hgen
  have hapi : vars.API = str "github.com/andig/evcc/api" := by
    unfold buildVars at hv
    cases hl : typesLoop dts [] [] with
    | error e => simp [hl] at hv
    | ok r =>
      obtain ⟨types, combos⟩ := r
      simp only [hl] at hv
      cases hb : index (SplitN b 46 2) 1 with
      | error e => simp [hb] at hv
      | ok shortBase =>
        simp only [hb, Except.ok.injEq] at hv
        rw [← hv]
  obtain ⟨hp, hf, hb, _⟩ := buildVars_spec p f b dts vars hv
  obtain ⟨hfp, hfa, hff, hfb, _⟩ := execute_spec vars dts file he
  have h1 : str " \x7b\n\tswitch \x7b\n" = str " \x7b\n" ++ str "\tswitch \x7b\n" := by decide
  unfold generate
  rw [hgen]
  simp only [File.render, renderBranches_text, h1, hfp, hfa, hff, hfb, hp, hf, hb, hapi,
    List.append_assoc]

theorem caseComposite_embedded (d : CaseData) :
    (caseComposite d).Embedded =
      (keys (sortedEntries d.Types)).filter (fun T => decide (T ∈ d.Combo)) := by
  have hcont : ∀ T, contains d.Combo T = decide (T ∈ d.Combo) := by
    intro T; rw [Bool.eq_iff_iff, contains_iff]; simp
  simp only [caseComposite, hcont, keys]
  rw [filterMap_ite (sortedEntries d.Types) (fun e => decide (e.1 ∈ d.Combo)) (fun e => e.1),
    List.filter_map]
  rfl

theorem caseGuard_eq (d : CaseData) :
    caseGuard d = (sortedEntries d.Types).map
      (fun e => { VarName := e.2.VarName, present := decide (e.1 ∈ d.Combo) }) := by
  unfold caseGuard
  apply List.map_congr_left
  intro e _
  have : contains d.Combo e.1 = decide (e.1 ∈ d.Combo) := by
    rw [Bool.eq_iff_iff, contains_iff]; simp
  simp [this]

/-- The branch of a combination in the emitted file, and the text `generate` writes for it. -/
theorem case_text (p f b : GoString) (dts : List dynamicType) (vars : Vars) (file : File)
    (hv : buildVars p f b dts = .ok vars) (hgen : generateFile p f b dts = .ok file)
    (C : List GoString) (hC : C ∈ vars.Combinations) :
    ({ guard := (sortedEntries vars.Types).map
         (fun e => { VarName := e.2.VarName, present := decide (e.1 ∈ C) })
       body := .returnComposite
         { Base := b
           Embedded := (keys (sortedEntries vars.Types)).filter (fun T => decide (T ∈ C))
           ShortBase := vars.ShortBase
           Inits := ((sortedEntries vars.Types).filter (fun e => decide (e.1 ∈ C))).map
             (fun e => { Field := e.2.ShortType
                         Impl := f ++ e.2.ShortType ++ str "Impl"
                         Key := e.2.VarName
                         Value := e.2.VarName }) } } : Branch) ∈ file.Branches ∧
    ∃ before after, generate p f b dts = .ok (before ++
      (str "\tcase" ++ List.intercalate (str " &&")
          ((sortedEntries vars.Types).map (fun e => str " " ++ e.2.VarName ++ str " " ++
            (if e.1 ∈ C then str "!=" else str "==") ++ str " nil")) ++
        (str ":\n\t\treturn &struct\x7b\n\t\t\t" ++ b ++
          (((keys (sortedEntries vars.Types)).filter (fun T => decide (T ∈ C))).map
            (fun typ => str "\n\t\t\t" ++ typ)).flatten ++
          str "\n\t\t\x7d\x7b\n\t\t\t" ++ vars.ShortBase ++ str ": base," ++
          (((sortedEntries vars.Types).filter (fun e => decide (e.1 ∈ C))).map
            (fun e => str "\n\t\t\t" ++ e.2.ShortType ++ str ": &" ++
              (f ++ e.2.ShortType ++ str "Impl") ++ str "\x7b\n\t\t\t\t" ++ e.2.VarName ++
              str ": " ++ e.2.VarName ++ str ",\n\t\t\t\x7d,")).flatten ++
          str "\n\t\t\x7d\n")) ++ after) := by
  obtain ⟨vars', hv', he⟩ := generateFile_spec p f b dts file hgen
  have hvv : vars' = vars := by rw [hv] at hv'; exact (Except.ok.inj hv').symm
  subst hvv
  obtain ⟨_, hf, hb, _⟩ := buildVars_spec p f b dts vars' hv
  subst hf
  subst hb
  obtain ⟨_, _, _, _, _, hbr, _⟩ := execute_spec vars' dts file he
  have hbranch : caseBranch { BaseType := vars'.BaseType
                              Prefix := vars'.Function
                              ShortBase := vars'.ShortBase
                              Types := vars'.Types
                              Combo := C } =
      ({ guard := (sortedEntries vars'.Types).map
           (fun e => { VarName := e.2.VarName, present := decide (e.1 ∈ C) })
         body := .returnComposite
           { Base := vars'.BaseType
             Embedded := (keys (sortedEntries vars'.Types)).filter (fun T => decide (T ∈ C))
             ShortBase := vars'.ShortBase
             Inits := ((sortedEntries vars'.Types).filter (fun e => decide (e.1 ∈ C))).map
               (fun e => { Field := e.2.ShortType
                           Impl := vars'.Function ++ e.2.ShortType ++ str "Impl"
                           Key := e.2.VarName
                           Value := e.2.VarName }) } } : Branch) := by
    have h1 := caseGuard_eq { BaseType := vars'.BaseType
                              Prefix := vars'.Function
                              ShortBase := vars'.ShortBase
                              Types := vars'.Types
                              Combo := C }
    have h2 := caseComposite_embedded { BaseType := vars'.BaseType
                                        Prefix := vars'.Function
                                        ShortBase := vars'.ShortBase
                                        Types := vars'.Types
                                        Combo := C }
    have h3 := caseComposite_inits { BaseType := vars'.BaseType
                                     Prefix := vars'.Function
                                     ShortBase := vars'.ShortBase
                                     Types := vars'.Types
                                     Combo := C }
    have hc : caseComposite { BaseType := vars'.BaseType
                              Prefix := vars'.Function
                              ShortBase := vars'.ShortBase
                              Types := vars'.Types
                              Combo := C } =
        { Base := vars'.BaseType
          Embedded := (keys (sortedEntries vars'.Types)).filter (fun T => decide (T ∈ C))
          ShortBase := vars'.ShortBase
          Inits := ((sortedEntries vars'.Types).filter (fun e => decide (e.1 ∈ C))).map
            (fun e => { Field := e.2.ShortType
                        Impl := vars'.Function ++ e.2.ShortType ++ str "Impl"
                        Key := e.2.VarName
                        Value := e.2.VarName }) } := by
      rw [← h2, ← h3]
      rfl
    unfold caseBranch
    rw [h1, hc]
  have hmem : caseBranch { BaseType := vars'.BaseType
                           Prefix := vars'.Function
                           ShortBase := vars'.ShortBase
                           Types := vars'.Types
                           Combo := C } ∈ file.Branches := by
    rw [hbr]
    exact List.mem_cons_of_mem _ (List.mem_map.mpr ⟨C, hC, rfl⟩)
  rw [hbranch] at hmem
  refine ⟨hmem, ?_⟩
  obtain ⟨a, c, hac⟩ := mem_intercalate (str "\n") (fun br : Branch =>
      str "\tcase" ++ List.intercalate (str " &&")
        (br.guard.map (fun c => str " " ++ c.VarName ++ str " " ++
          (if c.present = true then str "!=" else str "==") ++ str " nil")) ++
      br.body.render) file.Branches _ hmem
  have htext := generate_text p vars'.Function vars'.BaseType dts file hgen
  rw [hac] at htext
  refine ⟨str "\npackage " ++ p ++
      str "\n\n// This file has been generated - do not modify\n\nimport (\n\t\"" ++
      str "github.com/andig/evcc/api" ++ str "\"\n)\n\nfunc " ++ vars'.Function ++
      str "(base " ++ vars'.BaseType ++
      (file.Params.map (fun q => str ", " ++ q.1 ++ str " " ++ q.2)).flatten ++ str ") " ++
      vars'.BaseType ++ str " \x7b\n" ++ str "\tswitch \x7b\n" ++ a,
    c ++ str "\t\x7d\n\n\treturn nil\n\x7d\n\n" ++
      ((file.Adapters.map Adapter.render).flatten ++ str "\n"), ?_⟩
  have hj : str "\n\t\t\x7d\n" = str "\n\t\t\x7d" ++ str "\n" := by decide
  rw [htext, hj]
  simp only [Body.render, Composite.render, FieldInit.render, List.map_map,
    Function.comp_def, decide_eq_true_eq, List.append_assoc]

/-! ## The dispatcher in the emitted text -/

/-- C1: the text `generate` writes consists of the header, the switch whose cases are the
branches of the emitted file, each printed as `case`, its conjuncts `<var> != nil` or
`<var> == nil` joined by `&&`, and its body, then `return nil` and the adapters.  When the
capability names are pairwise distinct the switch has `2^n` cases (the zero branch and one per
combination) and, whatever accessor variables are nil or non-nil, the guard of exactly one of
them holds; so a case is always taken and the trailing `return nil` is never reached. -/
theorem dispatcher_total (p f b : GoString) (dts : List dynamicType) (file : File)
    (hgen : generateFile p f b dts = .ok file)
    (hnames : (dts.map (fun dt => dt.typ)).Nodup) (nonNil : GoString → Bool) :
    generate p f b dts = .ok
      (str "\npackage " ++ p ++
        str "\n\n// This file has been generated - do not modify\n\nimport (\n\t\"" ++
        str "github.com/andig/evcc/api" ++ str "\"\n)\n\nfunc " ++ f ++ str "(base " ++ b ++
        (file.Params.map (fun q => str ", " ++ q.1 ++ str " " ++ q.2)).flatten ++ str ") " ++
        b ++ str " \x7b\n" ++
        (str "\tswitch \x7b\n" ++
          List.intercalate (str "\n") (file.Branches.map (fun br =>
            str "\tcase" ++ List.intercalate (str " &&")
              (br.guard.map (fun c => str " " ++ c.VarName ++ str " " ++
                (if c.present = true then str "!=" else str "==") ++ str " nil")) ++
            br.body.render)) ++
          str "\t\x7d\n\n\treturn nil\n\x7d\n\n") ++
        ((file.Adapters.map Adapter.render).flatten ++ str "\n")) ∧
    file.Branches.length = 2 ^ dts.length ∧
    (file.Branches.filter (fun br => evalGuard nonNil br.guard)).length = 1 ∧
    dispatch nonNil file.Branches ≠ none := by
  obtain ⟨vars, hv, he⟩ := generateFile_spec p f b dts file hgen
  obtain ⟨_, _, _, _, hcomb, hnd, hkeys, _⟩ := buildVars_spec p f b dts vars hv
  obtain ⟨_, _, _, _, _, hbr, _⟩ := execute_spec vars dts file he
  have hone := count_guards nonNil vars _ hnames hcomb hnd hkeys
  rw [← hbr] at hone
  refine ⟨generate_text p f b dts file hgen, ?_, hone, fun hnone => ?_⟩
  · rw [hbr, hcomb]
    have hpos : 0 < 2 ^ dts.length := Nat.two_pow_pos _
    simp only [List.length_cons, List.length_map, length_All]
    omega
  · rw [dispatch_eq_none] at hnone
    have : file.Branches.filter (fun br => evalGuard nonNil br.guard) = [] := by
      rw [List.filter_eq_nil_iff]
      intro br hbr'
      simp [hnone br hbr']
    rw [this] at hone
    simp at hone

set_option maxRecDepth 100000 in
/-- C1, on the sample capability list with only the accessor `soc` present: the emitted switch
has the four cases of the two capabilities, in this order, and exactly one guard holds. -/
theorem dispatcher_total_witness :
    (∃ t0 t1 t2 t3 t4,
      generate (str "vehicle") (str "decorate") (str "api.Vehicle") sampleTypes =
        .ok (t0 ++ str "\tswitch \x7b\n\tcase range == nil && soc == nil:\n\t\treturn base\n" ++
          t1 ++ str "\tcase range == nil && soc != nil:\n\t\treturn &struct\x7b" ++
          t2 ++ str "\tcase range != nil && soc == nil:\n\t\treturn &struct\x7b" ++
          t3 ++ str "\tcase range != nil && soc != nil:\n\t\treturn &struct\x7b" ++
          t4)) ∧
    sampleFile.Branches.length = 2 ^ sampleTypes.length ∧
    (sampleFile.Branches.filter
      (fun br => evalGuard (fun v => v == str "soc") br.guard)).length = 1 ∧
    dispatch (fun v => v == str "soc") sampleFile.Branches ≠ none :=
  ⟨⟨sampleText.take 203, (sampleText.drop 261).take 1, (sampleText.drop 313).take 101,
    (sampleText.drop 465).take 111, sampleText.drop 627,
    by rfl⟩,
   (dispatcher_total (str "vehicle") (str "decorate") (str "api.Vehicle") sampleTypes sampleFile
      (by rfl) (by decide) (fun v => v == str "soc")).2⟩

/-- C4: the first case of the emitted switch, directly after `switch {`, is `case` followed by
one conjunct `<var> == nil` per capability, joined by `&&`, and the body `return base`; the
variable of every capability occurs in it and nothing else does.  When all these variables are
nil the dispatcher takes this case and returns `base`, not a composite. -/
theorem zero_branch_returns_base (p f b : GoString) (dts : List dynamicType) (file : File)
    (hgen : generateFile p f b dts = .ok file) :
    ∃ guard rest, file.Branches = { guard := guard, body := .returnBase } :: rest ∧
      (∀ c ∈ guard, c.present = false) ∧
      (∀ dt ∈ dts, ∃ ts, mkTypeStruct dt = .ok ts ∧
        ({ VarName := ts.VarName, present := false } : Conjunct) ∈ guard) ∧
      (∀ c ∈ guard, ∃ dt ∈ dts, ∃ ts, mkTypeStruct dt = .ok ts ∧ c.VarName = ts.VarName) ∧
      guard.length = (dts.map (fun dt => dt.typ)).dedup.length ∧
      (∃ after, generate p f b dts = .ok
        (str "\npackage " ++ p ++
          str "\n\n// This file has been generated - do not modify\n\nimport (\n\t\"" ++
          str "github.com/andig/evcc/api" ++ str "\"\n)\n\nfunc " ++ f ++ str "(base " ++ b ++
          (file.Params.map (fun q => str ", " ++ q.1 ++ str " " ++ q.2)).flatten ++ str ") " ++
          b ++ str " \x7b\n" ++
          (str "\tswitch \x7b\n" ++
            (str "\tcase" ++ List.intercalate (str " &&")
              (guard.map (fun c => str " " ++ c.VarName ++ str " == nil")) ++
              str ":\n\t\treturn base\n")) ++ after)) ∧
      ∀ nonNil : GoString → Bool, (∀ c ∈ guard, nonNil c.VarName = false) →
        dispatch nonNil file.Branches = some .returnBase := by
  obtain ⟨vars, hv, he⟩ := generateFile_spec p f b dts file hgen
  obtain ⟨_, _, _, _, hcomb, hnd, hkeys, hrec⟩ := buildVars_spec p f b dts vars hv
  obtain ⟨_, _, _, _, _, hbr, _⟩ := execute_spec vars dts file he
  have hfalse : ∀ c ∈ (zeroBranch vars.Types).guard, c.present = false := by
    intro c hc
    simp only [zeroBranch, List.mem_map] at hc
    obtain ⟨e, _, rfl⟩ := hc
    rfl
  refine ⟨_, _, hbr, hfalse, ?_, ?_, ?_, ?_, ?_⟩
  · intro dt hdt
    obtain ⟨ts, hts⟩ := buildVars_each p f b dts vars hv dt hdt
    refine ⟨ts, hts, ?_⟩
    have hk : dt.typ ∈ keys vars.Types := (hkeys _).mpr (List.mem_map_of_mem _ hdt)
    have hmem : (dt.typ, mapGet vars.Types dt.typ) ∈ vars.Types :=
      (mem_iff_mapGet vars.Types hnd _ _).mpr ⟨hk, rfl⟩
    obtain ⟨dt', _, e1, e2⟩ := hrec _ hmem
    have hn := (mkTypeStruct_names dt' dt _ ts e2 hts e1).2.2
    simp only [List.mem_map]
    have hn' : (mapGet vars.Types dt.typ).VarName = ts.VarName := hn
    exact ⟨_, (mem_sortedEntries _ _).mpr hmem, by rw [hn']⟩
  · intro c hc
    simp only [List.mem_map] at hc
    obtain ⟨e, he', rfl⟩ := hc
    obtain ⟨dt, hdt, _, e2⟩ := hrec e ((mem_sortedEntries _ e).mp he')
    exact ⟨dt, hdt, e.2, e2, rfl⟩
  · rw [List.length_map]
    have := dedup_length_of_keys (keys (sortedEntries vars.Types)) (dts.map (fun dt => dt.typ))
      ((keys_sortedEntries_perm vars.Types).nodup_iff.mpr hnd)
      (fun k => by rw [(keys_sortedEntries_perm vars.Types).mem_iff]; exact hkeys k)
    simpa [keys] using this
  · have htext := generate_text p f b dts file hgen
    obtain ⟨rest, hrest⟩ : ∃ rest, file.Branches = zeroBranch vars.Types :: rest := ⟨_, hbr⟩
    rw [hrest, List.map_cons, intercalate_cons_eq] at htext
    have hk : str " == nil" = str " " ++ (str "==" ++ str " nil") := by decide
    have hg : (zeroBranch vars.Types).guard.map (fun c => str " " ++ c.VarName ++ str " " ++
          (if c.present = true then str "!=" else str "==") ++ str " nil") =
        (zeroBranch vars.Types).guard.map (fun c => str " " ++ c.VarName ++ str " == nil") := by
      apply List.map_congr_left
      intro c hc
      rw [hfalse c hc, hk]
      simp only [Bool.false_eq_true, if_false, List.append_assoc]
    rw [hg] at htext
    refine ⟨((rest.map (fun br => str "\tcase" ++ List.intercalate (str " &&")
        (br.guard.map (fun c => str " " ++ c.VarName ++ str " " ++
          (if c.present = true then str "!=" else str "==") ++ str " nil")) ++
        br.body.render)).map (fun y => str "\n" ++ y)).flatten ++
      (str "\t\x7d\n\n\treturn nil\n\x7d\n\n" ++
        ((file.Adapters.map Adapter.render).flatten ++ str "\n")), ?_⟩
    rw [htext]
    simp only [Body.render, zeroBranch, List.append_assoc]
  · intro nonNil hall
    rw [hbr]
    have hg : evalGuard nonNil (zeroBranch vars.Types).guard = true := by
      simp only [evalGuard, List.all_eq_true]
      intro c hc
      simp [Conjunct.eval, hfalse c hc, hall c hc]
    simp only [dispatch, hg, if_true]
    rfl

set_option maxRecDepth 100000 in
/-- C4, on the sample capability list: the emitted switch opens with
`case range == nil && soc == nil:` and `return base`. -/
theorem zero_branch_returns_base_witness :
    (∃ before after,
      generate (str "vehicle") (str "decorate") (str "api.Vehicle") sampleTypes =
        .ok (before ++
          str "\tswitch \x7b\n\tcase range == nil && soc == nil:\n\t\treturn base\n" ++ after)) ∧
    ∃ guard rest, sampleFile.Branches = { guard := guard, body := .returnBase } :: rest ∧
      (∀ c ∈ guard, c.present = false) ∧
      (∀ dt ∈ sampleTypes, ∃ ts, mkTypeStruct dt = .ok ts ∧
        ({ VarName := ts.VarName, present := false } : Conjunct) ∈ guard) ∧
      (∀ c ∈ guard, ∃ dt ∈ sampleTypes, ∃ ts, mkTypeStruct dt = .ok ts ∧
        c.VarName = ts.VarName) ∧
      guard.length = (sampleTypes.map (fun dt => dt.typ)).dedup.length :=
  ⟨⟨sampleText.take 203, sampleText.drop 261, by rfl⟩,
   match zero_branch_returns_base (str "vehicle") (str "decorate") (str "api.Vehicle")
      sampleTypes sampleFile (by rfl) with
   | ⟨guard, rest, h1, h2, h3, h4, h5, _⟩ => ⟨guard, rest, h1, h2, h3, h4, h5⟩⟩

set_option maxRecDepth 100000 in
/-- C2 as stated fails when two capabilities share a variable name: for `a.Soc` and `b.Soc` the
branch of the combination `a.Soc` is emitted as `case soc != nil && soc == nil:`.  The presence
pattern in which only `a.Soc` is present has exactly that combination as its present set, yet
the guard is false whatever the variable `soc` holds. -/
theorem guard_exact_match_counterexample :
    buildVars (str "vehicle") (str "decorate") (str "api.Vehicle") collidingTypes =
      .ok collidingVars ∧
    [str "a.Soc"] ∈ collidingVars.Combinations ∧
    (caseBranch { BaseType := collidingVars.BaseType
                  Prefix := collidingVars.Function
                  ShortBase := collidingVars.ShortBase
                  Types := collidingVars.Types
                  Combo := [str "a.Soc"] }) ∈ collidingFile.Branches ∧
    (caseBranch { BaseType := collidingVars.BaseType
                  Prefix := collidingVars.Function
                  ShortBase := collidingVars.ShortBase
                  Types := collidingVars.Types
                  Combo := [str "a.Soc"] }).guard =
      [{ VarName := str "soc", present := true }, { VarName := str "soc", present := false }] ∧
    (∃ before after,
      generate (str "vehicle") (str "decorate") (str "api.Vehicle") collidingTypes =
        .ok (before ++ str "\tcase soc != nil && soc == nil:" ++ after)) ∧
    (∀ T ∈ collidingTypes.map (fun dt => dt.typ),
      (decide (T = str "a.Soc") = true ↔ T ∈ [str "a.Soc"])) ∧
    ∀ nonNil : GoString → Bool,
      evalGuard nonNil
        [{ VarName := str "soc", present := true }, { VarName := str "soc", present := false }] =
        false := by
  refine ⟨by rfl, by decide, by decide, by decide,
    ⟨collidingText.take 243, collidingText.drop 274, by rfl⟩, by decide, fun nonNil => ?_⟩
  cases h : nonNil (str "soc") <;> simp [evalGuard, Conjunct.eval, h]

/-- C2, amended: the branch emitted for a combination `C` has the guard with one conjunct per
entry of the capability table, in key order, printed as `<var> != nil` when the name is in `C`
and `<var> == nil` otherwise; the table has exactly one entry per capability name, holding the
record of that capability.  Hence, when every accessor variable is non-nil exactly when its
capability is present (an assignment that exists for every presence pattern as long as no two
capabilities share a variable name), the guard holds exactly when the set of present
capabilities is `C`, so it fails for every strict superset or subset of `C`. -/
theorem guard_exact_match (p f b : GoString) (dts : List dynamicType) (vars : Vars)
    (file : File) (hv : buildVars p f b dts = .ok vars)
    (hgen : generateFile p f b dts = .ok file) (C : List GoString)
    (hC : C ∈ vars.Combinations) :
    (∃ body, ({ guard := (sortedEntries vars.Types).map
                  (fun e => { VarName := e.2.VarName, present := decide (e.1 ∈ C) })
                body := body } : Branch) ∈ file.Branches) ∧
    (∃ before after, generate p f b dts = .ok (before ++
      (str "\tcase" ++ List.intercalate (str " &&")
          ((sortedEntries vars.Types).map (fun e => str " " ++ e.2.VarName ++ str " " ++
            (if e.1 ∈ C then str "!=" else str "==") ++ str " nil")) ++
        str ":\n\t\treturn &struct\x7b") ++ after)) ∧
    (keys (sortedEntries vars.Types)).Nodup ∧
    (∀ T, T ∈ keys (sortedEntries vars.Types) ↔ T ∈ dts.map (fun dt => dt.typ)) ∧
    (∀ e ∈ sortedEntries vars.Types, ∃ dt ∈ dts, dt.typ = e.1 ∧ mkTypeStruct dt = .ok e.2) ∧
    ∀ pat : GoString → Bool,
      ((∀ e1 ∈ vars.Types, ∀ e2 ∈ vars.Types, e1.2.VarName = e2.2.VarName → e1.1 = e2.1) →
        ∃ nonNil : GoString → Bool, ∀ e ∈ vars.Types, nonNil e.2.VarName = pat e.1) ∧
      ∀ nonNil : GoString → Bool, (∀ e ∈ vars.Types, nonNil e.2.VarName = pat e.1) →
        (evalGuard nonNil ((sortedEntries vars.Types).map
            (fun e => { VarName := e.2.VarName, present := decide (e.1 ∈ C) })) = true ↔
          ∀ T ∈ dts.map (fun dt => dt.typ), (pat T = true ↔ T ∈ C)) := by
  obtain ⟨_, _, _, _, hcomb, hnd, hkeys, hrec⟩ := buildVars_spec p f b dts vars hv
  obtain ⟨hmem, before, after, htext⟩ := case_text p f b dts vars file hv hgen C hC
  refine ⟨⟨_, hmem⟩, ?_, ?_, ?_, ?_, fun pat => ⟨?_, ?_⟩⟩
  · have hs : str ":\n\t\treturn &struct\x7b\n\t\t\t" =
        str ":\n\t\treturn &struct\x7b" ++ str "\n\t\t\t" := by decide
    refine ⟨before, str "\n\t\t\t" ++ b ++
      (((keys (sortedEntries vars.Types)).filter (fun T => decide (T ∈ C))).map
        (fun typ => str "\n\t\t\t" ++ typ)).flatten ++
      str "\n\t\t\x7d\x7b\n\t\t\t" ++ vars.ShortBase ++ str ": base," ++
      (((sortedEntries vars.Types).filter (fun e => decide (e.1 ∈ C))).map
        (fun e => str "\n\t\t\t" ++ e.2.ShortType ++ str ": &" ++
          (f ++ e.2.ShortType ++ str "Impl") ++ str "\x7b\n\t\t\t\t" ++ e.2.VarName ++
          str ": " ++ e.2.VarName ++ str ",\n\t\t\t\x7d,")).flatten ++
      str "\n\t\t\x7d\n" ++ after, ?_⟩
    rw [htext, hs]
    simp only [List.append_assoc]
  · exact (keys_sortedEntries_perm vars.Types).nodup_iff.mpr hnd
  · intro T
    rw [(keys_sortedEntries_perm vars.Types).mem_iff]
    exact hkeys T
  · intro e he
    exact hrec e ((mem_sortedEntries _ e).mp he)
  · intro hinj
    refine ⟨fun v => vars.Types.any (fun e => decide (e.2.VarName = v) && pat e.1), ?_⟩
    intro e he
    cases hp : pat e.1
    · rw [List.any_eq_false]
      intro e' he'
      by_cases hvar : e'.2.VarName = e.2.VarName
      · have := hinj e' he' e he hvar
        simp [this, hp]
      · simp [hvar]
    · rw [List.any_eq_true]
      exact ⟨e, he, by simp [hp]⟩
  · intro nonNil hcons
    rw [evalGuard_entries nonNil vars.Types hnd (fun T => decide (T ∈ C))]
    constructor
    · intro h T hT
      have hk := (hkeys T).mpr hT
      have hent : (T, mapGet vars.Types T) ∈ vars.Types :=
        (mem_iff_mapGet vars.Types hnd _ _).mpr ⟨hk, rfl⟩
      have h1 := h T hk
      have h2 := hcons _ hent
      simp only at h2
      rw [h2] at h1
      rw [h1]
      simp
    · intro h T hk
      have hent : (T, mapGet vars.Types T) ∈ vars.Types :=
        (mem_iff_mapGet vars.Types hnd _ _).mpr ⟨hk, rfl⟩
      have h2 := hcons _ hent
      simp only at h2
      rw [h2, Bool.eq_iff_iff]
      simpa using h T ((hkeys T).mp hk)

/-- C2 (amended), on the sample capability list and the combination `api.Range`. -/
theorem guard_exact_match_witness :
    [str "api.Range"] ∈ sampleVars.Combinations ∧
    (∃ body, ({ guard := (sortedEntries sampleVars.Types).map
                  (fun e => { VarName := e.2.VarName
                              present := decide (e.1 ∈ [str "api.Range"]) })
                body := body } : Branch) ∈ sampleFile.Branches) ∧
    (∃ before after,
      generate (str "vehicle") (str "decorate") (str "api.Vehicle") sampleTypes =
        .ok (before ++
          (str "\tcase" ++ List.intercalate (str " &&")
              ((sortedEntries sampleVars.Types).map (fun e => str " " ++ e.2.VarName ++
                str " " ++ (if e.1 ∈ [str "api.Range"] then str "!=" else str "==") ++
                str " nil")) ++
            str ":\n\t\treturn &struct\x7b") ++ after)) :=
  have h := guard_exact_match (str "vehicle") (str "decorate") (str "api.Vehicle") sampleTypes
    sampleVars sampleFile (by rfl) (by rfl) [str "api.Range"] (by decide)
  ⟨by decide, h.1, h.2.1⟩

/-! ## The composite in the emitted text -/

set_option maxRecDepth 100000 in
/-- C5 as stated fails when the base type is also a capability: with base `api.Soc` and the
capabilities `api.Soc`, `api.Range`, the case emitted for the combination `api.Range` returns a
struct whose embedded types are `api.Soc` and `api.Range`, although the capability `api.Soc` is
outside the combination. -/
theorem composite_embeds_counterexample :
    buildVars (str "vehicle") (str "decorate") (str "api.Soc") sampleTypes = .ok overlapVars ∧
    [str "api.Range"] ∈ overlapVars.Combinations ∧
    (∃ before after,
      generate (str "vehicle") (str "decorate") (str "api.Soc") sampleTypes =
        .ok (before ++ str ("\tcase range != nil && soc == nil:\n\t\treturn &struct\x7b" ++
          "\n\t\t\tapi.Soc\n\t\t\tapi.Range\n\t\t\x7d\x7b") ++ after)) ∧
    ¬ (∀ T ∈ sampleTypes.map (fun dt => dt.typ),
        (T ∈ str "api.Soc" ::
            (keys (sortedEntries overlapVars.Types)).filter
              (fun T => decide (T ∈ [str "api.Range"])) ↔
          T ∈ [str "api.Range"])) := by
  refine ⟨by rfl, by decide, ⟨overlapText.take 398, overlapText.drop 478, by rfl⟩, by decide⟩

/-- C5, amended: the case emitted for a combination `C` returns the anonymous struct that embeds
the base type first and then exactly the capability names that are members of `C`, in key order
(the text of the case is spelled out).  So every capability other than the base type itself is
embedded if and only if it is a member of `C`, every embedded type is the base type or a member
of `C`, and the initialised fields after the base field are those of the members of `C`. -/
theorem composite_embeds (p f b : GoString) (dts : List dynamicType) (vars : Vars)
    (file : File) (hv : buildVars p f b dts = .ok vars)
    (hgen : generateFile p f b dts = .ok file) (C : List GoString)
    (hC : C ∈ vars.Combinations) :
    ({ guard := (sortedEntries vars.Types).map
         (fun e => { VarName := e.2.VarName, present := decide (e.1 ∈ C) })
       body := .returnComposite
         { Base := b
           Embedded := (keys (sortedEntries vars.Types)).filter (fun T => decide (T ∈ C))
           ShortBase := vars.ShortBase
           Inits := ((sortedEntries vars.Types).filter (fun e => decide (e.1 ∈ C))).map
             (fun e => { Field := e.2.ShortType
                         Impl := f ++ e.2.ShortType ++ str "Impl"
                         Key := e.2.VarName
                         Value := e.2.VarName }) } } : Branch) ∈ file.Branches ∧
    (∃ before after, generate p f b dts = .ok (before ++
      (str "\tcase" ++ List.intercalate (str " &&")
          ((sortedEntries vars.Types).map (fun e => str " " ++ e.2.VarName ++ str " " ++
            (if e.1 ∈ C then str "!=" else str "==") ++ str " nil")) ++
        (str ":\n\t\treturn &struct\x7b\n\t\t\t" ++ b ++
          (((keys (sortedEntries vars.Types)).filter (fun T => decide (T ∈ C))).map
            (fun typ => str "\n\t\t\t" ++ typ)).flatten ++
          str "\n\t\t\x7d\x7b\n\t\t\t" ++ vars.ShortBase ++ str ": base," ++
          (((sortedEntries vars.Types).filter (fun e => decide (e.1 ∈ C))).map
            (fun e => str "\n\t\t\t" ++ e.2.ShortType ++ str ": &" ++
              (f ++ e.2.ShortType ++ str "Impl") ++ str "\x7b\n\t\t\t\t" ++ e.2.VarName ++
              str ": " ++ e.2.VarName ++ str ",\n\t\t\t\x7d,")).flatten ++
          str "\n\t\t\x7d\n")) ++ after)) ∧
    (∀ T ∈ dts.map (fun dt => dt.typ),
      (T ∈ (keys (sortedEntries vars.Types)).filter (fun T => decide (T ∈ C)) ↔ T ∈ C)) ∧
    (∀ T ∈ dts.map (fun dt => dt.typ), T ≠ b →
      (T ∈ b :: (keys (sortedEntries vars.Types)).filter (fun T => decide (T ∈ C)) ↔
        T ∈ C)) ∧
    (∀ T ∈ b :: (keys (sortedEntries vars.Types)).filter (fun T => decide (T ∈ C)),
      T = b ∨ T ∈ C) ∧
    (∀ e ∈ (sortedEntries vars.Types).filter (fun e => decide (e.1 ∈ C)), e.1 ∈ C) := by
  obtain ⟨_, _, _, _, _, _, hkeys, _⟩ := buildVars_spec p f b dts vars hv
  obtain ⟨hmem, htext⟩ := case_text p f b dts vars file hv hgen C hC
  have hiff : ∀ T ∈ dts.map (fun dt => dt.typ),
      (T ∈ (keys (sortedEntries vars.Types)).filter (fun T => decide (T ∈ C)) ↔ T ∈ C) := by
    intro T hT
    rw [List.mem_filter, (keys_sortedEntries_perm vars.Types).mem_iff, hkeys T]
    simp [hT]
  refine ⟨hmem, htext, hiff, ?_, ?_, ?_⟩
  · intro T hT hne
    rw [List.mem_cons, hiff T hT]
    exact ⟨fun h => h.resolve_left hne, Or.inr⟩
  · intro T hT
    rcases List.mem_cons.mp hT with h | h
    · exact Or.inl h
    · rw [List.mem_filter] at h
      exact Or.inr (by simpa using h.2)
  · intro e he
    rw [List.mem_filter] at he
    simpa using he.2

/-- C5 (amended), on the sample capability list and the combination `api.Range`. -/
theorem composite_embeds_witness :
    [str "api.Range"] ∈ sampleVars.Combinations ∧
    ({ guard := (sortedEntries sampleVars.Types).map
         (fun e => { VarName := e.2.VarName, present := decide (e.1 ∈ [str "api.Range"]) })
       body := .returnComposite
         { Base := str "api.Vehicle"
           Embedded := (keys (sortedEntries sampleVars.Types)).filter
             (fun T => decide (T ∈ [str "api.Range"]))
           ShortBase := sampleVars.ShortBase
           Inits := ((sortedEntries sampleVars.Types).filter
               (fun e => decide (e.1 ∈ [str "api.Range"]))).map
             (fun e => { Field := e.2.ShortType
                         Impl := str "decorate" ++ e.2.ShortType ++ str "Impl"
                         Key := e.2.VarName
                         Value := e.2.VarName }) } } : Branch) ∈ sampleFile.Branches :=
  ⟨by decide,
   (composite_embeds (str "vehicle") (str "decorate") (str "api.Vehicle") sampleTypes sampleVars
     sampleFile (by rfl) (by rfl) [str "api.Range"] (by decide)).1⟩

set_option maxRecDepth 100000 in
/-- C13 as stated fails when two capabilities share a variable name: for `a.Soc` and `b.Soc`
the emitted function has the parameters `soc func() int, soc func() int`, and the initialiser of
`a.Soc` in the case of the combination `a.Soc` stores `soc`, which is the parameter of `b.Soc`
as much as that of `a.Soc`. -/
theorem composite_wiring_counterexample :
    generateFile (str "vehicle") (str "decorate") (str "api.Vehicle") collidingTypes =
      .ok collidingFile ∧
    collidingFile.Params = [(str "soc", str "func() int"), (str "soc", str "func() int")] ∧
    (∃ before after,
      generate (str "vehicle") (str "decorate") (str "api.Vehicle") collidingTypes =
        .ok (before ++
          str "func decorate(base api.Vehicle, soc func() int, soc func() int) api.Vehicle \x7b" ++
          after)) ∧
    (∃ before after,
      generate (str "vehicle") (str "decorate") (str "api.Vehicle") collidingTypes =
        .ok (before ++ str ("\tcase soc != nil && soc == nil:\n\t\treturn &struct\x7b" ++
          "\n\t\t\tapi.Vehicle\n\t\t\ta.Soc\n\t\t\x7d\x7b\n\t\t\tVehicle: base," ++
          "\n\t\t\tSoc: &decorateSocImpl\x7b\n\t\t\t\tsoc: soc,\n\t\t\t\x7d,\n\t\t\x7d\n") ++
          after)) ∧
    [str "a.Soc"] ∈ collidingVars.Combinations ∧
    (mapGet collidingVars.Types (str "a.Soc")).VarName = str "soc" ∧
    (mapGet collidingVars.Types (str "b.Soc")).VarName = str "soc" ∧
    ¬ (∀ dt ∈ collidingTypes,
        (mapGet collidingVars.Types dt.typ).VarName = str "soc" → dt.typ = str "a.Soc") := by
  refine ⟨by rfl, by decide, ⟨collidingText.take 108, collidingText.drop 185, by rfl⟩,
    ⟨collidingText.take 243, collidingText.drop 390, by rfl⟩, by decide, by decide, by decide,
    by decide⟩

/-- C13, amended: for a member `T` of a combination `C`, the case emitted for `C` (its text is
spelled out) contains the initialiser `<ShortType>: &<function><ShortType>Impl{ <VarName>:
<VarName>, }` built from the record of `T` itself; `<VarName> <Signature>` of that record is a
parameter in the emitted signature `func <function>(base <base>, ...)`; as long as the variable
names of distinct capabilities are distinct, it is the parameter of no other capability; every
initialiser after the base field belongs to a member of `C`; the base field, named by the text
after the first `.` of the base type, is initialised with `base`. -/
theorem composite_wiring (p f b : GoString) (dts : List dynamicType) (vars : Vars)
    (file : File) (hv : buildVars p f b dts = .ok vars)
    (hgen : generateFile p f b dts = .ok file) (C : List GoString)
    (hC : C ∈ vars.Combinations) (T : GoString) (hT : T ∈ C) :
    ({ guard := (sortedEntries vars.Types).map
         (fun e => { VarName := e.2.VarName, present := decide (e.1 ∈ C) })
       body := .returnComposite
         { Base := b
           Embedded := (keys (sortedEntries vars.Types)).filter (fun T => decide (T ∈ C))
           ShortBase := vars.ShortBase
           Inits := ((sortedEntries vars.Types).filter (fun e => decide (e.1 ∈ C))).map
             (fun e => { Field := e.2.ShortType
                         Impl := f ++ e.2.ShortType ++ str "Impl"
                         Key := e.2.VarName
                         Value := e.2.VarName }) } } : Branch) ∈ file.Branches ∧
    (∃ before after, generate p f b dts = .ok (before ++
      (str "\tcase" ++ List.intercalate (str " &&")
          ((sortedEntries vars.Types).map (fun e => str " " ++ e.2.VarName ++ str " " ++
            (if e.1 ∈ C then str "!=" else str "==") ++ str " nil")) ++
        (str ":\n\t\treturn &struct\x7b\n\t\t\t" ++ b ++
          (((keys (sortedEntries vars.Types)).filter (fun T => decide (T ∈ C))).map
            (fun typ => str "\n\t\t\t" ++ typ)).flatten ++
          str "\n\t\t\x7d\x7b\n\t\t\t" ++ vars.ShortBase ++ str ": base," ++
          (((sortedEntries vars.Types).filter (fun e => decide (e.1 ∈ C))).map
            (fun e => str "\n\t\t\t" ++ e.2.ShortType ++ str ": &" ++
              (f ++ e.2.ShortType ++ str "Impl") ++ str "\x7b\n\t\t\t\t" ++ e.2.VarName ++
              str ": " ++ e.2.VarName ++ str ",\n\t\t\t\x7d,")).flatten ++
          str "\n\t\t\x7d\n")) ++ after)) ∧
    (∃ after, generate p f b dts = .ok
      (str "\npackage " ++ p ++
        str "\n\n// This file has been generated - do not modify\n\nimport (\n\t\"" ++
        str "github.com/andig/evcc/api" ++ str "\"\n)\n\nfunc " ++ f ++ str "(base " ++ b ++
        ((dts.map (fun dt => ((mapGet vars.Types dt.typ).VarName,
            (mapGet vars.Types dt.typ).Signature))).map
          (fun q => str ", " ++ q.1 ++ str " " ++ q.2)).flatten ++ str ") " ++
        b ++ str " \x7b\n" ++ after)) ∧
    index (SplitN b 46 2) 1 = .ok vars.ShortBase ∧
    (∀ e ∈ (sortedEntries vars.Types).filter (fun e => decide (e.1 ∈ C)), e.1 ∈ C) ∧
    ∃ ts, (T, ts) ∈ vars.Types ∧
      (∃ dt ∈ dts, dt.typ = T ∧ mkTypeStruct dt = .ok ts) ∧
      (str "\n\t\t\t" ++ ts.ShortType ++ str ": &" ++
          (f ++ ts.ShortType ++ str "Impl") ++ str "\x7b\n\t\t\t\t" ++ ts.VarName ++
          str ": " ++ ts.VarName ++ str ",\n\t\t\t\x7d,") ∈
        ((sortedEntries vars.Types).filter (fun e => decide (e.1 ∈ C))).map
          (fun e => str "\n\t\t\t" ++ e.2.ShortType ++ str ": &" ++
            (f ++ e.2.ShortType ++ str "Impl") ++ str "\x7b\n\t\t\t\t" ++ e.2.VarName ++
            str ": " ++ e.2.VarName ++ str ",\n\t\t\t\x7d,") ∧
      (∀ dt ∈ dts, dt.typ = T →
        ((mapGet vars.Types dt.typ).VarName, (mapGet vars.Types dt.typ).Signature) =
          (ts.VarName, ts.Signature)) ∧
      (ts.VarName, ts.Signature) ∈ file.Params ∧
      ((∀ d1 ∈ dts, ∀ d2 ∈ dts,
          (mapGet vars.Types d1.typ).VarName = (mapGet vars.Types d2.typ).VarName →
          d1.typ = d2.typ) →
        ∀ dt ∈ dts, (mapGet vars.Types dt.typ).VarName = ts.VarName → dt.typ = T) := by
  obtain ⟨vars', hv', he⟩ := generateFile_spec p f b dts file hgen
  have hvv : vars' = vars := by
    rw [hv] at hv'
    simpa using hv'.symm
  subst hvv
  obtain ⟨_, hf, _, hidx, hcomb, hnd, hkeys, hrec⟩ := buildVars_spec p f b dts vars' hv
  obtain ⟨_, _, _, _, hpar, _, _⟩ := execute_spec vars' dts file he
  obtain ⟨hmemb, htext⟩ := case_text p f b dts vars' file hv hgen C hC
  have hTn : T ∈ dts.map (fun dt => dt.typ) := by
    rw [hcomb] at hC
    exact ((mem_All _ C).mp hC).1.subset hT
  have hk : T ∈ keys vars'.Types := (hkeys T).mpr hTn
  have hmem : (T, mapGet vars'.Types T) ∈ vars'.Types :=
    (mem_iff_mapGet vars'.Types hnd _ _).mpr ⟨hk, rfl⟩
  obtain ⟨dtT, hdtT, hdtT1, _⟩ := hrec _ hmem
  have hpar' : file.Params = dts.map (fun dt => ((mapGet vars'.Types dt.typ).VarName,
      (mapGet vars'.Types dt.typ).Signature)) := by
    rw [hpar]
    simp [ordered]
  refine ⟨hmemb, htext, ?_, hidx, ?_, mapGet vars'.Types T, hmem, hrec _ hmem, ?_, ?_, ?_, ?_⟩
  · have hg := generate_text p f b dts file hgen
    rw [hpar'] at hg
    refine ⟨str "\tswitch \x7b\n" ++
        List.intercalate (str "\n") (file.Branches.map (fun br =>
          str "\tcase" ++ List.intercalate (str " &&")
            (br.guard.map (fun c => str " " ++ c.VarName ++ str " " ++
              (if c.present = true then str "!=" else str "==") ++ str " nil")) ++
          br.body.render)) ++
        str "\t\x7d\n\n\treturn nil\n\x7d\n\n" ++
      ((file.Adapters.map Adapter.render).flatten ++ str "\n"), ?_⟩
    rw [hg]
    simp only [List.append_assoc]
  · intro e he'
    rw [List.mem_filter] at he'
    simpa using he'.2
  · rw [List.mem_map]
    exact ⟨(T, mapGet vars'.Types T),
      List.mem_filter.mpr ⟨(mem_sortedEntries _ _).mpr hmem, by simpa using hT⟩, rfl⟩
  · intro dt _ hdtT'
    rw [hdtT']
  · rw [hpar', List.mem_map]
    exact ⟨dtT, hdtT, by rw [hdtT1]⟩
  · intro hinj dt hdt hvar
    have hT' : dtT.typ = T := hdtT1
    have := hinj dt hdt dtT hdtT (by rw [hT']; exact hvar)
    rw [this, hT']

/-- C13 (amended), on the sample capability list, the combination `api.Range` and its member:
the variable names of the sample are distinct, the case is in the emitted file and the
initialisers after the base field belong to members of the combination. -/
theorem composite_wiring_witness :
    [str "api.Range"] ∈ sampleVars.Combinations ∧
    (∀ d1 ∈ sampleTypes, ∀ d2 ∈ sampleTypes,
      (mapGet sampleVars.Types d1.typ).VarName = (mapGet sampleVars.Types d2.typ).VarName →
      d1.typ = d2.typ) ∧
    ({ guard := (sortedEntries sampleVars.Types).map
         (fun e => { VarName := e.2.VarName, present := decide (e.1 ∈ [str "api.Range"]) })
       body := .returnComposite
         { Base := str "api.Vehicle"
           Embedded := (keys (sortedEntries sampleVars.Types)).filter
             (fun T => decide (T ∈ [str "api.Range"]))
           ShortBase := sampleVars.ShortBase
           Inits := ((sortedEntries sampleVars.Types).filter
               (fun e => decide (e.1 ∈ [str "api.Range"]))).map
             (fun e => { Field := e.2.ShortType
                         Impl := str "decorate" ++ e.2.ShortType ++ str "Impl"
                         Key := e.2.VarName
                         Value := e.2.VarName }) } } : Branch) ∈ sampleFile.Branches ∧
    index (SplitN (str "api.Vehicle") 46 2) 1 = .ok sampleVars.ShortBase :=
  ⟨by decide, by decide,
   (composite_wiring (str "vehicle") (str "decorate") (str "api.Vehicle") sampleTypes sampleVars
     sampleFile (by rfl) (by rfl) [str "api.Range"] (by decide) (str "api.Range")
     (List.mem_singleton.mpr rfl)).1,
   (composite_wiring (str "vehicle") (str "decorate") (str "api.Vehicle") sampleTypes sampleVars
     sampleFile (by rfl) (by rfl) [str "api.Range"] (by decide) (str "api.Range")
     (List.mem_singleton.mpr rfl)).2.2.2.1⟩

end Decorate
